import Mathlib

/-!
Verification development for the git-grove repository.

The Go sources are shallowly embedded: Go strings become `List Char`,
the handful of `strings` and `path/filepath` library functions the code
uses are reimplemented with their documented (unix) semantics, and the
filesystem effects of the convert / add / init commands are modelled by
explicit state passing over a flat map from (path string) to node.
External git-library calls (go-git) are modelled at their interface:
opening a repository succeeds exactly when a repository is rooted at the
opened path, the detected worktree root is a field of the repository
value, and network operations are recorded in a trace together with the
context timeout (if any) they were issued under.
-/

/-- Go strings, embedded as lists of characters. -/
abbrev Str := List Char

/-- Conversion from Lean string literals to the embedding. -/
def str (s : String) : Str := s.toList

/-- strings.HasPrefix: whether `pre` is a prefix of `s`. -/
def startsWith : Str → Str → Bool
  | [], _ => true
  | _ :: _, [] => false
  | p :: ps, c :: cs => if p = c then startsWith ps cs else false

/-- strings.TrimPrefix: remove `pre` from the front of `s` when present. -/
def trimPfx (pre s : Str) : Str :=
  if startsWith pre s then s.drop pre.length else s

/-- Whitespace recognized by strings.TrimSpace (ASCII subset). -/
def isSpaceCh (c : Char) : Bool :=
  c = ' ' ∨ c = '\t' ∨ c = '\n' ∨ c = '\x0b' ∨ c = '\x0c' ∨ c = '\r'

/-- strings.TrimSpace: trim whitespace from both ends. -/
def trimSpace (s : Str) : Str :=
  ((s.dropWhile isSpaceCh).reverse.dropWhile isSpaceCh).reverse

/-- Fuel-structured worker for strings.Split (nonempty separator):
leftmost, non-overlapping cuts. The fuel is always instantiated with the
length of the string, which suffices because every step consumes at least
one character. -/
def goSplitAux (sep : Str) : Nat → Str → List Str
  | _, [] => [[]]
  | 0, s => [s]
  | n + 1, c :: rest =>
    if startsWith sep (c :: rest) then
      [] :: goSplitAux sep n (List.drop sep.length (c :: rest))
    else
      match goSplitAux sep n rest with
      | [] => [[c]]
      | t :: ts => (c :: t) :: ts

/-- strings.Split. An empty separator explodes the string into
characters, as in Go; all uses in this repository pass a nonempty
separator. -/
def goSplit (sep s : Str) : List Str :=
  if sep = [] then s.map (fun c => [c]) else goSplitAux sep s.length s

/-- strings.Contains: whether `sep` occurs as a contiguous substring. -/
def containsSub (sep : Str) : Str → Bool
  | [] => sep = []
  | c :: rest => startsWith sep (c :: rest) || containsSub sep rest

/-- filepath.IsAbs on unix: the path starts with a slash. -/
def isAbs (p : Str) : Bool := startsWith (str "/") p

/-- One step of filepath.Clean segment processing: empty and dot
segments are dropped, dotdot pops (rooted) or pops/keeps (relative), and
ordinary segments are appended. -/
def cleanStep (rooted : Bool) (out : List Str) (seg : Str) : List Str :=
  if seg = [] ∨ seg = str "." then out
  else if seg = str ".." then
    if rooted then out.dropLast
    else if out ≠ [] ∧ out.getLast? ≠ some (str "..") then out.dropLast
    else out ++ [seg]
  else out ++ [seg]

/-- Segment normalization underlying filepath.Clean. -/
def cleanSegs (rooted : Bool) (segs : List Str) : List Str :=
  segs.foldl (cleanStep rooted) []

/-- filepath.Clean (unix semantics). -/
def clean (p : Str) : Str :=
  if p = [] then str "."
  else
    let rooted := isAbs p
    let out := cleanSegs rooted (goSplit (str "/") p)
    let res := (if rooted then str "/" else []) ++ List.intercalate (str "/") out
    if res = [] then str "." else res

/-- filepath.Join of two elements: empty elements are dropped and the
result is cleaned, as in Go. -/
def goJoinPath (a b : Str) : Str :=
  if a = [] ∧ b = [] then []
  else if a = [] then clean b
  else if b = [] then clean a
  else clean (a ++ str "/" ++ b)

/-- filepath.Abs, with the working directory passed explicitly. -/
def goAbs (cwd p : Str) : Str :=
  if isAbs p then clean p else goJoinPath cwd p

/-- filepath.IsLocal (unix): not absolute, not empty, and, after
cleaning when dot segments are present, neither ".." nor escaping
through a leading "../". -/
def isLocal (p : Str) : Bool :=
  if isAbs p ∨ p = [] then false
  else
    let hasDots := (goSplit (str "/") p).any (fun seg => seg = str "." ∨ seg = str "..")
    let q := if hasDots then clean p else p
    ¬(q = str ".." ∨ startsWith (str "../") q)

/-- filepath.Base (unix): trailing slashes are stripped, then the part
after the last slash is returned; "" gives "." and an all-slash path
gives "/". -/
def base (p : Str) : Str :=
  if p = [] then str "."
  else
    let q := (p.reverse.dropWhile (fun c => c = '/')).reverse
    if q = [] then str "/"
    else (q.reverse.takeWhile (fun c => ¬ c = '/')).reverse

/-- Error kinds, following the error taxonomy the code realizes through
fmt.Errorf messages: format errors for malformed .git link files and
malformed SSH URLs, validation errors for non-empty target directories,
an unsupported-protocol error from URL classification, a no-HEAD error
from remote listing, and IO errors for filesystem and network failures. -/
inductive GroveError
  | ioError
  | formatError
  | validationError
  | unsupportedProtocolError
  | noHeadError
  deriving DecidableEq, Repr

deriving instance DecidableEq for Except

/-- The literal prefix required on the first line of a .git link file
(constant GitFilePrefix in pkg/git/local). -/
def gitFilePfx : Str := str "gitdir:"

/-- The name of the .git entry at the root of each worktree
(constant GitStorePath in pkg/git/local). -/
def GitStorePath : Str := str ".git"

/-- The parsing core of Repository.readGitFile, applied to the first
line of the link file: require the gitdir: prefix, strip it, trim
whitespace, and require the remainder to be a nonempty absolute or
local path. Mirrors the Go return convention of an empty string
alongside the error. -/
def readGitFileLine (line : Str) : Str × Option GroveError :=
  if ¬ startsWith gitFilePfx line then ([], some .formatError)
  else
    let linkedPath := trimSpace (trimPfx gitFilePfx line)
    if (¬ isAbs linkedPath ∧ ¬ isLocal linkedPath) ∨ linkedPath = [] then
      ([], some .formatError)
    else (linkedPath, none)

/-- A character matched by the regexp metacharacter dot: anything but a
newline. -/
def nonNL (c : Char) : Bool := ¬ c = '\n'

/-- All ways of cutting a string around one occurrence of a character:
(a, b) is listed exactly when the string is a ++ ch :: b. -/
def splitsAtCh (ch : Char) : Str → List (Str × Str)
  | [] => []
  | c :: rest =>
    (if c = ch then [(([] : Str), rest)] else []) ++
      (splitsAtCh ch rest).map (fun p => (c :: p.1, p.2))

/-- Anchored match of the regular expression .+@.+:.+ against a whole
string: some decomposition a ++ at-sign ++ b ++ colon ++ c with a, b, c
nonempty and free of newlines. -/
def fullShape (s : Str) : Bool :=
  (splitsAtCh '@' s).any fun p =>
    (¬ p.1 = []) && p.1.all nonNL &&
      ((splitsAtCh ':' p.2).any fun q =>
        (¬ q.1 = []) && q.1.all nonNL && (¬ q.2 = []) && q.2.all nonNL)

/-- regexp.MatchString for the pattern .+@.+:.+ : unanchored, so the
match succeeds when any contiguous substring (a prefix of a suffix)
matches the anchored pattern. -/
def sshShapeMatch (s : Str) : Bool :=
  s.tails.any fun t => t.inits.any fullShape

/-- The basic-auth credential built for HTTP(S) remotes
(go-git http.BasicAuth). -/
structure BasicAuth where
  Username : Str
  Password : Str
  deriving DecidableEq, Repr

/-- State of the remote package HTTPAuthentication resolver: the
credential cached after the first interactive acquisition. -/
structure HTTPAuthentication where
  authMethod : Option BasicAuth
  deriving DecidableEq, Repr

/-- State of the remote package SSHAuthentication resolver. -/
structure SSHAuthentication where
  URL : Str
  deriving DecidableEq, Repr

/-- The Authentication interface of the remote package, realized by the
two resolver variants. -/
inductive Authentication
  | http (state : HTTPAuthentication)
  | ssh (state : SSHAuthentication)
  deriving DecidableEq, Repr

/-- AuthMethod of the remote package: classify the URL by its shape.
http:// and https:// prefixes select the HTTP(S) resolver; an ssh://
prefix or a match of the regexp .+@.+:.+ selects the SSH resolver;
anything else is an unsupported protocol. -/
def AuthMethod (url : Str) : Except GroveError Authentication :=
  if startsWith (str "https://") url || startsWith (str "http://") url then
    .ok (.http ⟨none⟩)
  else if startsWith (str "ssh://") url || sshShapeMatch url then
    .ok (.ssh ⟨url⟩)
  else .error .unsupportedProtocolError

/-- The credential produced by a resolver: a basic-auth pair for
HTTP(S) or an SSH-agent-backed method for a username. -/
inductive AuthCred
  | basic (b : BasicAuth)
  | sshAgent (user : Str)
  deriving DecidableEq, Repr

/-- SSHAuthentication.NewAuthMethod: strip an ssh:// prefix (storing
the stripped URL back on the receiver), split on the at-sign, fail
unless the split yields exactly two parts, and hand the part before the
at-sign to the SSH agent as the username. The agent construction itself
is external and modelled as succeeding. -/
def SSHAuthentication.NewAuthMethod (a : SSHAuthentication) :
    Except GroveError (SSHAuthentication × AuthCred) :=
  let url := trimPfx (str "ssh://") a.URL
  let tokens := goSplit (str "@") url
  if ¬ tokens.length = 2 then .error .formatError
  else .ok (⟨url⟩, .sshAgent (tokens.headD []))

/-- The interactive console: a supply of reads (none models a read
failure) and the list of prompts printed so far. -/
structure Console where
  stdin : List (Option Str)
  prompts : List Str
  deriving DecidableEq, Repr

/-- One read from standard input. -/
def consoleRead (c : Console) : Option Str × Console :=
  match c.stdin with
  | [] => (none, c)
  | r :: rest => (r, { c with stdin := rest })

/-- HTTPAuthentication.createCachedAuthMethod: prompt for a username
(echoed) and a password (not echoed), build the basic-auth credential,
and cache it on the resolver. -/
def HTTPAuthentication.createCachedAuthMethod (a : HTTPAuthentication) (c : Console) :
    Except GroveError BasicAuth × HTTPAuthentication × Console :=
  let c0 := { c with prompts := c.prompts ++ [str "username: "] }
  match consoleRead c0 with
  | (none, c1) => (.error .ioError, a, c1)
  | (some u, c1) =>
    let username := trimSpace u
    let c2 := { c1 with prompts := c1.prompts ++ [str "password: "] }
    match consoleRead c2 with
    | (none, c3) => (.error .ioError, a, c3)
    | (some p, c3) =>
      let auth : BasicAuth := ⟨username, p⟩
      (.ok auth, ⟨some auth⟩, c3)

/-- HTTPAuthentication.NewAuthMethod: return the cached credential when
one exists, otherwise acquire one interactively and cache it. -/
def HTTPAuthentication.NewAuthMethod (a : HTTPAuthentication) (c : Console) :
    Except GroveError BasicAuth × HTTPAuthentication × Console :=
  match a.authMethod with
  | some m => (.ok m, a, c)
  | none => HTTPAuthentication.createCachedAuthMethod a c

/-- Dispatch of Authentication.NewAuthMethod over the two resolver
variants, threading the console and the (possibly updated) resolver. -/
def Authentication.NewAuthMethodA :
    Authentication → Console → Except GroveError AuthCred × Authentication × Console
  | .http st, c =>
    match HTTPAuthentication.NewAuthMethod st c with
    | (.error e, st', c') => (.error e, .http st', c')
    | (.ok b, st', c') => (.ok (.basic b), .http st', c')
  | .ssh st, c =>
    match SSHAuthentication.NewAuthMethod st with
    | .error e => (.error e, .ssh st, c)
    | .ok (st', cred) => (.ok cred, .ssh st', c)

/-- Metadata of a directory in the flat filesystem model: an opaque
content identifier (tracking which tree the directory holds), whether a
directory listing is non-empty, whether a git repository is rooted
here, the default branch that repository is actually configured with,
and the permission mode. -/
structure DirMeta where
  contentId : Nat
  nonEmpty : Bool
  isRepo : Bool
  branch : Str
  mode : Nat
  deriving DecidableEq, Repr

/-- A filesystem node: a directory, or a text file modelled by its
first line (only first lines are ever read by the code). -/
inductive Node
  | dir (d : DirMeta)
  | file (firstLine : Str)
  deriving DecidableEq, Repr

/-- Association-list lookup over filesystem entries. -/
def findEntry : List (Str × Node) → Str → Option Node
  | [], _ => none
  | (k, v) :: rest, key => if k = key then some v else findEntry rest key

/-- Remove every binding of a key. -/
def eraseKey (key : Str) : List (Str × Node) → List (Str × Node)
  | [] => []
  | (k, v) :: rest => if k = key then eraseKey key rest else (k, v) :: eraseKey key rest

/-- Insert a binding, shadowing-free. -/
def insertEntry (key : Str) (v : Node) (es : List (Str × Node)) : List (Str × Node) :=
  (key, v) :: eraseKey key es

/-- Length of the longest key; used to model temp-directory freshness. -/
def maxKeyLen : List (Str × Node) → Nat
  | [] => 0
  | (k, _) :: rest => max k.length (maxKeyLen rest)

/-- The filesystem state: entries keyed by path strings, the working
directory of the process, and the names of worktrees created through
the external git library. -/
structure FS where
  entries : List (Str × Node)
  cwd : Str
  worktrees : List Str
  deriving DecidableEq, Repr

/-- os.Stat. -/
def statFS (fs : FS) (p : Str) : Option Node := findEntry fs.entries p

/-- Failure modes of os.ReadDir that the code distinguishes. -/
inductive ReadDirErr
  | notExist
  | notDir
  deriving DecidableEq, Repr

/-- os.ReadDir, reduced to the only fact the code consumes: whether the
directory listing is non-empty. -/
def readDirFS (fs : FS) (p : Str) : Except ReadDirErr Bool :=
  match statFS fs p with
  | none => .error .notExist
  | some (.file _) => .error .notDir
  | some (.dir d) => .ok d.nonEmpty

/-- os.MkdirAll: succeeds without change on an existing directory,
fails on an existing file, creates a fresh empty directory otherwise
(intermediate directories are not tracked by the flat model). -/
def mkdirAllFS (fs : FS) (p : Str) (mode : Nat) : Except GroveError FS :=
  match statFS fs p with
  | some (.dir _) => .ok fs
  | some (.file _) => .error .ioError
  | none => .ok { fs with entries := insertEntry p (.dir ⟨0, false, false, [], mode⟩) fs.entries }

/-- os.Rename: fails when the source is missing, otherwise moves the
node to the destination key. -/
def renameFS (fs : FS) (src dst : Str) : Except GroveError FS :=
  match findEntry fs.entries src with
  | none => .error .ioError
  | some node => .ok { fs with entries := insertEntry dst node (eraseKey src fs.entries) }

/-- The fresh directory name produced by os.MkdirTemp for the pattern
convert-grove-*: freshness of the random suffix is modelled by making
the name strictly longer than every existing key. -/
def freshTmpName (fs : FS) : Str :=
  str "/tmp/convert-grove-" ++ List.replicate (maxKeyLen fs.entries + 1) 'x'

/-- os.MkdirTemp: create and return a fresh empty directory. -/
def mkdirTempFS (fs : FS) : Str × FS :=
  let tmp := freshTmpName fs
  (tmp, { fs with entries := insertEntry tmp (.dir ⟨0, false, false, [], 0o700⟩) fs.entries })

/-- os.Remove as used in the deferred cleanup: removing a file or an
empty directory succeeds, anything else only produces a warning, so the
state is left unchanged. -/
def osRemoveQuiet (fs : FS) (p : Str) : FS :=
  match findEntry fs.entries p with
  | some (.dir d) =>
    if d.nonEmpty then fs else { fs with entries := eraseKey p fs.entries }
  | some (.file _) => { fs with entries := eraseKey p fs.entries }
  | none => fs

/-- Permission mode reported by os.Stat for a node. -/
def nodeMode : Node → Nat
  | .dir d => d.mode
  | .file _ => 0o644

namespace Local

/-- The local Repository of pkg/git/local: the path it was opened from
and the data the external go-git library detected at open time — the
filesystem root of the current worktree and whether the repository is
bare (a bare repository has no worktree). -/
structure Repository where
  initPath : Str
  root : Str
  bare : Bool
  deriving DecidableEq, Repr

/-- local.NewRepository: open the repository at the path. The external
go-git open is modelled as succeeding exactly when a repository is
rooted at the absolute form of the path (upward .git auto-detection
from nested directories is not modelled); the detected worktree root is
then that path. -/
def NewRepository (fs : FS) (path : Str) : Except GroveError Repository :=
  match statFS fs (goAbs fs.cwd path) with
  | some (.dir d) =>
    if d.isRepo then .ok ⟨path, goAbs fs.cwd path, false⟩ else .error .ioError
  | _ => .error .ioError

/-- Repository.DefaultBranch of pkg/git/local: the constant "main",
with a nil error, regardless of the repository. -/
def Repository.DefaultBranch (_ : Repository) : Except GroveError Str :=
  .ok (str "main")

/-- Repository.CurrentWorktree: the root of the worktree the repository
was opened in, delegated to go-git; fails for bare repositories. -/
def Repository.CurrentWorktree (r : Repository) : Except GroveError Str :=
  if r.bare then .error .ioError else .ok r.root

/-- GitPath: the canonical .git entry directly under a worktree root. -/
def GitPath (path : Str) : Str := goJoinPath path GitStorePath

/-- Repository.readGitFile over the filesystem: open the file at the
path and parse its first line. -/
def Repository.readGitFile (fs : FS) (path : Str) : Except GroveError Str :=
  match findEntry fs.entries path with
  | some (.file line) =>
    match readGitFileLine line with
    | (p, none) => .ok p
    | (_, some e) => .error e
  | _ => .error .ioError

/-- The path surgery at the end of Repository.MainWorktree: split the
resolved path on the .git marker; if the marker is absent the path is
returned whole, otherwise everything from the last marker occurrence on
is discarded by rejoining all split segments but the last. -/
def mainFromLinked (mainWorktreePath : Str) : Str :=
  let tokens := goSplit GitStorePath mainWorktreePath
  if tokens.length = 1 then tokens.headD []
  else List.intercalate GitStorePath tokens.dropLast

/-- Repository.MainWorktree: stat the .git entry under the current
worktree root; a directory means this is the main worktree; a file is a
link file that is parsed, made absolute against the current worktree
root when relative, and stripped back to the directory above the last
.git marker occurrence. -/
def Repository.MainWorktree (fs : FS) (r : Repository) : Except GroveError Str :=
  match r.CurrentWorktree with
  | .error e => .error e
  | .ok currentWorktreePath =>
    let gitPath := GitPath currentWorktreePath
    match statFS fs gitPath with
    | none => .error .ioError
    | some (.dir _) => .ok currentWorktreePath
    | some (.file _) =>
      match Repository.readGitFile fs gitPath with
      | .error e => .error e
      | .ok raw =>
        let mainWorktreePath :=
          if isAbs raw then raw
          else goAbs fs.cwd (goJoinPath currentWorktreePath raw)
        .ok (mainFromLinked mainWorktreePath)

/-- Repository.AddWorktree: the target must exist as an empty
directory; only then is the main worktree located and the external
worktree manager invoked, modelled as marking the directory non-empty
and recording the worktree name (the final path element). -/
def Repository.AddWorktree (fs : FS) (r : Repository) (path : Str) : FS × Option GroveError :=
  match readDirFS fs path with
  | .error _ => (fs, some .ioError)
  | .ok nonEmpty =>
    if nonEmpty then (fs, some .validationError)
    else
      match Repository.MainWorktree fs r with
      | .error _ => (fs, some .ioError)
      | .ok _ =>
        ({ fs with
            entries := insertEntry path (.dir ⟨1, true, false, [], 0o700⟩) fs.entries,
            worktrees := fs.worktrees ++ [base path] }, none)

end Local

namespace GrovePkg

/-- The Grove of pkg/grove, holding the repository it was initialized
from. -/
structure Grove where
  repo : Local.Repository
  deriving DecidableEq, Repr

/-- Grove.Root: the parent directory of the main worktree root. -/
def Grove.Root (fs : FS) (g : Grove) : Except GroveError Str :=
  match g.repo.MainWorktree fs with
  | .error e => .error e
  | .ok mainWorktree => .ok (clean (goJoinPath mainWorktree (str "..")))

/-- The target-path resolution at the head of Grove.AddTree: a path not
starting with a slash is joined onto the grove root. -/
def Grove.resolveTreePath (fs : FS) (g : Grove) (path : Str) : Except GroveError Str :=
  if startsWith (str "/") path then .ok path
  else
    match g.Root fs with
    | .error e => .error e
    | .ok root => .ok (goJoinPath root path)

/-- Grove.AddTree: resolve the target, create missing directories with
mode 0700, and delegate worktree creation to Repository.AddWorktree. -/
def Grove.AddTree (fs : FS) (g : Grove) (path : Str) : FS × Option GroveError :=
  match g.resolveTreePath fs path with
  | .error e => (fs, some e)
  | .ok p =>
    match mkdirAllFS fs p 0o700 with
    | .error _ => (fs, some .ioError)
    | .ok fs1 => g.repo.AddWorktree fs1 p

end GrovePkg

namespace Convert

/-- ToGrove of cmd/convert: open the repository and read its default
branch first, then stage the checkout in a fresh temporary directory,
recreate the original directory with its original mode, move the staged
tree to the default-branch subdirectory, and finally remove the (now
empty) staging directory in the deferred cleanup. -/
def ToGrove (fs : FS) (path : Str) : FS × Option GroveError :=
  match Local.NewRepository fs path with
  | .error e => (fs, some e)
  | .ok repo =>
    match repo.DefaultBranch with
    | .error e => (fs, some e)
    | .ok defaultBranch =>
      let (tmp, fs1) := mkdirTempFS fs
      let abs := goAbs fs1.cwd path
      match statFS fs1 abs with
      | none => (osRemoveQuiet fs1 tmp, some .ioError)
      | some current =>
        let tmpRelocationPath := goJoinPath tmp (base abs)
        match renameFS fs1 abs tmpRelocationPath with
        | .error _ => (osRemoveQuiet fs1 tmp, some .ioError)
        | .ok fs2 =>
          match mkdirAllFS fs2 abs (nodeMode current) with
          | .error _ => (osRemoveQuiet fs2 tmp, some .ioError)
          | .ok fs3 =>
            let defaultBranchPath := goJoinPath abs defaultBranch
            match renameFS fs3 tmpRelocationPath defaultBranchPath with
            | .error _ => (osRemoveQuiet fs3 tmp, some .ioError)
            | .ok fs4 => (osRemoveQuiet fs4 tmp, none)

end Convert

namespace Remote

/-- The remote Repository of pkg/git/remote: the URL and the
authentication resolver chosen for it at construction. -/
structure Repository where
  URL : Str
  Authn : Authentication
  deriving DecidableEq, Repr

/-- remote.NewRepository: derive the authentication resolver from the
URL shape. -/
def NewRepository (remoteURL : Str) : Except GroveError Repository :=
  match AuthMethod remoteURL with
  | .error e => .error e
  | .ok auth => .ok ⟨remoteURL, auth⟩

/-- A network operation performed through the external git library,
recorded with the timeout (in seconds) of the context it was issued
under — none when the call carries no context bound. -/
inductive NetCall
  | listRefs (url : Str) (timeoutSecs : Option Nat)
  | clone (url : Str) (path : Str) (timeoutSecs : Option Nat)
  deriving DecidableEq, Repr

/-- The world a grove initialization runs in: the filesystem, the
console, the ref advertisement of the remote (none models a listing
failure; entries pair a ref name with the short name of its target),
and the trace of network operations issued so far. -/
structure InitWorld where
  fs : FS
  console : Console
  refs : Option (List (Str × Str))
  ops : List NetCall
  deriving DecidableEq, Repr

/-- Repository.DefaultBranch of pkg/git/remote: acquire credentials,
list the remote refs under the given context, and return the short
target name of the HEAD ref; no HEAD ref, or a HEAD ref with an empty
target, is an error. The listing is recorded with the timeout of the
context it received. -/
def Repository.DefaultBranch (w : InitWorld) (r : Repository) (ctxTimeout : Option Nat) :
    InitWorld × Repository × Except GroveError Str :=
  match r.Authn.NewAuthMethodA w.console with
  | (.error e, authn', console') =>
    ({ w with console := console' }, { r with Authn := authn' }, .error e)
  | (.ok _, authn', console') =>
    let w1 := { w with console := console',
                       ops := w.ops ++ [.listRefs r.URL ctxTimeout] }
    let r1 := { r with Authn := authn' }
    match w.refs with
    | none => (w1, r1, .error .ioError)
    | some refs =>
      match refs.find? (fun ref => decide (ref.1 = str "HEAD")) with
      | none => (w1, r1, .error .noHeadError)
      | some ref =>
        if ref.2 = [] then (w1, r1, .error .noHeadError)
        else (w1, r1, .ok ref.2)

/-- Repository.Clone of pkg/git/remote: acquire credentials and clone
through git.PlainClone. PlainClone runs under the background context,
so the recorded clone operation carries no timeout. The clone itself is
modelled as populating the target directory with the checkout. -/
def Repository.Clone (w : InitWorld) (r : Repository) (path : Str) :
    InitWorld × Repository × Option GroveError :=
  match r.Authn.NewAuthMethodA w.console with
  | (.error e, authn', console') =>
    ({ w with console := console' }, { r with Authn := authn' }, some e)
  | (.ok _, authn', console') =>
    ({ w with console := console',
              ops := w.ops ++ [.clone r.URL path none],
              fs := { w.fs with
                entries := insertEntry path (.dir ⟨1, true, true, [], 0o755⟩) w.fs.entries } },
     { r with Authn := authn' }, none)

end Remote

namespace InitCmd

/-- The directory permission used by grove init. -/
def defaultDirectoryPermissions : Nat := 0o755

/-- The fixed ceiling (in seconds) of the context created at the start
of NewGrove in cmd/initialize. -/
def groveInitTimeout : Nat := 60

/-- newOrEmptyDir of cmd/initialize: an existing directory must be
empty; a missing one is created with the default permissions. -/
def newOrEmptyDir (fs : FS) (path : Str) : Except GroveError FS :=
  match readDirFS fs path with
  | .error .notExist =>
    match mkdirAllFS fs path defaultDirectoryPermissions with
    | .error _ => .error .ioError
    | .ok fs' => .ok fs'
  | .error .notDir => .error .ioError
  | .ok nonEmpty => if nonEmpty then .error .validationError else .ok fs

/-- NewGrove of cmd/initialize: create a 60-second timeout context,
connect to the remote, determine its default branch (the listing runs
under the context), validate the grove root and the default worktree
directory, and clone into the default worktree location through
Repository.Clone — which issues the clone without the context. -/
def NewGrove (w : Remote.InitWorld) (repoURL path : Str) :
    Remote.InitWorld × Option GroveError :=
  let ctxTimeout := some groveInitTimeout
  match Remote.NewRepository repoURL with
  | .error e => (w, some e)
  | .ok repository =>
    match repository.DefaultBranch w ctxTimeout with
    | (w1, _, .error e) => (w1, some e)
    | (w1, repo1, .ok branch) =>
      match newOrEmptyDir w1.fs path with
      | .error e => (w1, some e)
      | .ok fs1 =>
        let defaultWorktreePath := goJoinPath path branch
        match newOrEmptyDir fs1 defaultWorktreePath with
        | .error e => ({ w1 with fs := fs1 }, some e)
        | .ok fs2 =>
          match repo1.Clone { w1 with fs := fs2 } defaultWorktreePath with
          | (w3, _, some e) => (w3, some e)
          | (w3, _, none) => (w3, none)

end InitCmd
/-- Example filesystem: a grove at /g with main worktree /g/main (its
.git entry is a directory) and a linked worktree at /g/feature whose
.git link file points into the metadata store of the main worktree. -/
def exFS : FS := {
  entries := [
    (str "/g/main/.git", .dir ⟨0, true, false, [], 0o755⟩),
    (str "/g/feature/.git", .file (str "gitdir: /g/main/.git/worktrees/feature"))],
  cwd := str "/g/feature",
  worktrees := [] }

/-- The repository opened from inside the linked worktree /g/feature. -/
def exRepo : Local.Repository := ⟨str "/g/feature", str "/g/feature", false⟩

/-- Example filesystem: a repository checkout at /repo whose actual
configured default branch is develop. -/
def fsC2 : FS := {
  entries := [(str "/repo", .dir ⟨7, true, true, str "develop", 0o755⟩)],
  cwd := str "/",
  worktrees := [] }

/-- Example filesystem: a non-empty directory at /abs/path. -/
def fsC5 : FS := {
  entries := [(str "/abs/path", .dir ⟨3, true, false, [], 0o755⟩)],
  cwd := str "/",
  worktrees := [] }

/-- A grove over a repository rooted at /g/main. -/
def groveC5 : GrovePkg.Grove := ⟨⟨str "/g/main", str "/g/main", false⟩⟩

/-- An empty filesystem rooted at /. -/
def fsEmpty : FS := { entries := [], cwd := str "/", worktrees := [] }

/-- Example world for grove initialization: empty filesystem, no
console input, and a remote advertising HEAD targeting main. -/
def c8World : Remote.InitWorld := {
  fs := fsEmpty,
  console := ⟨[], []⟩,
  refs := some [(str "HEAD", str "main")],
  ops := [] }

section StringLemmas

theorem startsWith_iff (p s : Str) : startsWith p s = true ↔ ∃ t, s = p ++ t := by
  induction p generalizing s with
  | nil => simp [startsWith]
  | cons a as ih =>
    cases s with
    | nil =>
      simp only [startsWith, List.cons_append, Bool.false_eq_true, false_iff]
      rintro ⟨t, h⟩
      cases h
    | cons c cs =>
      by_cases hac : a = c
      · subst hac
        rw [show startsWith (a :: as) (a :: cs) = startsWith as cs by simp [startsWith]]
        simp only [List.cons_append, List.cons.injEq, true_and, ih]
      · constructor
        · intro h
          rw [show startsWith (a :: as) (c :: cs) = false by simp [startsWith, hac]] at h
          cases h
        · rintro ⟨t, ht⟩
          simp only [List.cons_append, List.cons.injEq] at ht
          exact absurd ht.1.symm hac

theorem startsWith_append_of (p s u : Str) (h : startsWith p s = true) :
    startsWith p (s ++ u) = true := by
  rcases (startsWith_iff p s).mp h with ⟨t, rfl⟩
  exact (startsWith_iff p (p ++ t ++ u)).mpr ⟨t ++ u, by simp⟩

theorem startsWith_restore (sep s : Str) (h : startsWith sep s = true) :
    sep ++ s.drop sep.length = s := by
  rcases (startsWith_iff sep s).mp h with ⟨t, rfl⟩
  rw [List.drop_left]

theorem startsWith_self_append (p u : Str) : startsWith p (p ++ u) = true :=
  (startsWith_iff p (p ++ u)).mpr ⟨u, rfl⟩

theorem intercalate_nil (sep : Str) : List.intercalate sep ([] : List Str) = [] := by
  simp [List.intercalate, List.intersperse]

theorem intercalate_single (sep a : Str) : List.intercalate sep [a] = a := by
  simp [List.intercalate, List.intersperse]

theorem intercalate_cons₂ (sep a b : Str) (l : List Str) :
    List.intercalate sep (a :: b :: l) = a ++ sep ++ List.intercalate sep (b :: l) := by
  simp [List.intercalate, List.intersperse, List.append_assoc]

theorem intercalate_cons_of_ne (sep a : Str) (l : List Str) (h : l ≠ []) :
    List.intercalate sep (a :: l) = a ++ sep ++ List.intercalate sep l := by
  cases l with
  | nil => exact absurd rfl h
  | cons b bs => exact intercalate_cons₂ sep a b bs

theorem intercalate_cons_inner (sep : Str) (c : Char) (t : Str) (ts : List Str) :
    List.intercalate sep ((c :: t) :: ts) = c :: List.intercalate sep (t :: ts) := by
  cases ts with
  | nil => rw [intercalate_single, intercalate_single]
  | cons u us => rw [intercalate_cons₂, intercalate_cons₂]; simp

theorem intercalate_append_single (sep t : Str) (D : List Str) (h : D ≠ []) :
    List.intercalate sep (D ++ [t]) = List.intercalate sep D ++ sep ++ t := by
  induction D with
  | nil => exact absurd rfl h
  | cons a as ih =>
    cases as with
    | nil => simp [intercalate_cons₂, intercalate_single]
    | cons b bs =>
      have hne : b :: bs ≠ [] := by simp
      have h1 : (a :: b :: bs) ++ [t] = a :: ((b :: bs) ++ [t]) := by simp
      rw [h1, intercalate_cons_of_ne sep a ((b :: bs) ++ [t]) (by simp),
        ih hne, intercalate_cons₂ sep a b bs]
      simp [List.append_assoc]

theorem intercalate_ne_nil (sep : Str) (t : Str) (ts : List Str) (ht : t ≠ []) :
    List.intercalate sep (t :: ts) ≠ [] := by
  cases ts with
  | nil => rw [intercalate_single]; exact ht
  | cons u us =>
    rw [intercalate_cons₂]
    intro h
    exact ht (List.append_eq_nil.mp (List.append_eq_nil.mp h).1).1

theorem goSplitAux_ne_nil (sep : Str) (n : Nat) (s : Str) : goSplitAux sep n s ≠ [] := by
  induction n generalizing s with
  | zero => cases s <;> simp [goSplitAux]
  | succ n ih =>
    cases s with
    | nil => simp [goSplitAux]
    | cons c rest =>
      by_cases hsw : startsWith sep (c :: rest) = true
      · simp [goSplitAux, hsw]
      · simp only [goSplitAux, hsw, Bool.false_eq_true, if_false]
        rcases h : goSplitAux sep n rest with _ | ⟨t, ts⟩ <;> simp

theorem sep_length_pos (sep : Str) (hsep : sep ≠ []) : 1 ≤ sep.length := by
  cases sep with
  | nil => exact absurd rfl hsep
  | cons a as => simp

theorem goSplitAux_fuel_irrel (sep : Str) (hsep : sep ≠ []) (n m : Nat) (s : Str)
    (hn : s.length ≤ n) (hm : s.length ≤ m) :
    goSplitAux sep n s = goSplitAux sep m s := by
  induction n generalizing m s with
  | zero =>
    have : s = [] := List.length_eq_zero.mp (Nat.le_zero.mp hn)
    subst this
    cases m <;> simp [goSplitAux]
  | succ n ih =>
    cases s with
    | nil => cases m <;> simp [goSplitAux]
    | cons c rest =>
      have hsl : 1 ≤ sep.length := sep_length_pos sep hsep
      have hm1 : 0 < m := lt_of_lt_of_le (by simp) hm
      obtain ⟨m', rfl⟩ : ∃ m', m = m' + 1 := ⟨m - 1, by omega⟩
      have hrl : rest.length + 1 ≤ n + 1 := hn
      have hrm : rest.length + 1 ≤ m' + 1 := hm
      by_cases hsw : startsWith sep (c :: rest) = true
      · simp only [goSplitAux, hsw, if_true]
        have h1 : (List.drop sep.length (c :: rest)).length ≤ n := by
          simp only [List.length_drop, List.length_cons]
          omega
        have h2 : (List.drop sep.length (c :: rest)).length ≤ m' := by
          simp only [List.length_drop, List.length_cons]
          omega
        rw [ih m' (List.drop sep.length (c :: rest)) h1 h2]
      · simp only [goSplitAux, hsw, Bool.false_eq_true, if_false]
        rw [ih m' rest (by omega) (by omega)]

theorem goSplit_nil (sep : Str) (hsep : sep ≠ []) : goSplit sep [] = [[]] := by
  simp [goSplit, hsep, goSplitAux]

theorem goSplit_ne_nil (sep s : Str) (hsep : sep ≠ []) : goSplit sep s ≠ [] := by
  simp only [goSplit, hsep, if_false]
  exact goSplitAux_ne_nil sep s.length s

theorem goSplit_cons_match (sep : Str) (c : Char) (rest : Str) (hsep : sep ≠ [])
    (hsw : startsWith sep (c :: rest) = true) :
    goSplit sep (c :: rest) = [] :: goSplit sep (List.drop sep.length (c :: rest)) := by
  have hsl : 1 ≤ sep.length := sep_length_pos sep hsep
  have hlen : (List.drop sep.length (c :: rest)).length ≤ rest.length := by
    simp only [List.length_drop, List.length_cons]
    omega
  simp only [goSplit, hsep, if_false]
  show goSplitAux sep (rest.length + 1) (c :: rest) = _
  simp only [goSplitAux, hsw, if_true]
  rw [goSplitAux_fuel_irrel sep hsep rest.length (List.drop sep.length (c :: rest)).length _
    hlen (Nat.le_refl _)]

theorem goSplit_cons_nomatch (sep : Str) (c : Char) (rest : Str) (hsep : sep ≠ [])
    (hsw : startsWith sep (c :: rest) = false) :
    goSplit sep (c :: rest) =
      match goSplit sep rest with
      | [] => [[c]]
      | t :: ts => (c :: t) :: ts := by
  simp only [goSplit, hsep, if_false]
  show goSplitAux sep (rest.length + 1) (c :: rest) = _
  simp only [goSplitAux, hsw, Bool.false_eq_true, if_false]

end StringLemmas

section SplitLemmas

theorem containsSub_cons (sep : Str) (c : Char) (r : Str) :
    containsSub sep (c :: r) = (startsWith sep (c :: r) || containsSub sep r) := rfl

theorem containsSub_nil_false (sep : Str) (hsep : sep ≠ []) :
    containsSub sep [] = false := by
  simp [containsSub, hsep]

theorem containsSub_of_startsWith_drop (sep : Str) (hsep : sep ≠ []) :
    ∀ (l : Str) (k : Nat), startsWith sep (l.drop k) = true → containsSub sep l = true := by
  intro l
  induction l with
  | nil =>
    intro k h
    rw [List.drop_nil] at h
    cases sep with
    | nil => exact absurd rfl hsep
    | cons a as => simp [startsWith] at h
  | cons c r ih =>
    intro k h
    cases k with
    | zero =>
      rw [List.drop_zero] at h
      rw [containsSub_cons, h, Bool.true_or]
    | succ j =>
      rw [List.drop_succ_cons] at h
      rw [containsSub_cons, ih j h, Bool.or_true]

theorem goSplit_join (sep : Str) (hsep : sep ≠ []) :
    ∀ (n : Nat) (s : Str), s.length ≤ n →
      List.intercalate sep (goSplit sep s) = s := by
  intro n
  induction n with
  | zero =>
    intro s hs
    have : s = [] := List.length_eq_zero.mp (Nat.le_zero.mp hs)
    subst this
    rw [goSplit_nil sep hsep, intercalate_single]
  | succ n ih =>
    intro s hs
    cases s with
    | nil => rw [goSplit_nil sep hsep, intercalate_single]
    | cons c rest =>
      have hsl : 1 ≤ sep.length := sep_length_pos sep hsep
      have hrest : rest.length ≤ n := by
        simp only [List.length_cons] at hs
        omega
      by_cases hsw : startsWith sep (c :: rest) = true
      · rw [goSplit_cons_match sep c rest hsep hsw]
        have hTne : goSplit sep (List.drop sep.length (c :: rest)) ≠ [] :=
          goSplit_ne_nil sep _ hsep
        rw [intercalate_cons_of_ne sep [] _ hTne, List.nil_append]
        have hdl : (List.drop sep.length (c :: rest)).length ≤ n := by
          simp only [List.length_drop, List.length_cons]
          omega
        rw [ih (List.drop sep.length (c :: rest)) hdl]
        exact startsWith_restore sep (c :: rest) hsw
      · rw [goSplit_cons_nomatch sep c rest hsep (Bool.not_eq_true _ ▸ hsw)]
        rcases hT : goSplit sep rest with _ | ⟨t, ts⟩
        · exact absurd hT (goSplit_ne_nil sep rest hsep)
        · simp only
          rw [intercalate_cons_inner, ← hT, ih rest hrest]

theorem goSplit_head_prefix (sep : Str) (hsep : sep ≠ []) :
    ∀ (n : Nat) (s : Str), s.length ≤ n →
      ∃ u, (goSplit sep s).headD [] ++ u = s := by
  intro n
  induction n with
  | zero =>
    intro s hs
    have : s = [] := List.length_eq_zero.mp (Nat.le_zero.mp hs)
    subst this
    exact ⟨[], by rw [goSplit_nil sep hsep]; rfl⟩
  | succ n ih =>
    intro s hs
    cases s with
    | nil => exact ⟨[], by rw [goSplit_nil sep hsep]; rfl⟩
    | cons c rest =>
      have hrest : rest.length ≤ n := by
        simp only [List.length_cons] at hs
        omega
      by_cases hsw : startsWith sep (c :: rest) = true
      · rw [goSplit_cons_match sep c rest hsep hsw]
        exact ⟨c :: rest, rfl⟩
      · rw [goSplit_cons_nomatch sep c rest hsep (Bool.not_eq_true _ ▸ hsw)]
        rcases hT : goSplit sep rest with _ | ⟨t, ts⟩
        · exact absurd hT (goSplit_ne_nil sep rest hsep)
        · obtain ⟨u, hu⟩ := ih rest hrest
          rw [hT] at hu
          simp only [List.headD_cons] at hu
          exact ⟨u, by simp only [List.headD_cons, List.cons_append, hu]⟩

theorem goSplit_tokens_free (sep : Str) (hsep : sep ≠ []) :
    ∀ (n : Nat) (s : Str), s.length ≤ n →
      ∀ t ∈ goSplit sep s, containsSub sep t = false := by
  intro n
  induction n with
  | zero =>
    intro s hs t ht
    have : s = [] := List.length_eq_zero.mp (Nat.le_zero.mp hs)
    subst this
    rw [goSplit_nil sep hsep] at ht
    rcases List.mem_singleton.mp ht with rfl
    exact containsSub_nil_false sep hsep
  | succ n ih =>
    intro s hs t ht
    cases s with
    | nil =>
      rw [goSplit_nil sep hsep] at ht
      rcases List.mem_singleton.mp ht with rfl
      exact containsSub_nil_false sep hsep
    | cons c rest =>
      have hsl : 1 ≤ sep.length := sep_length_pos sep hsep
      have hrest : rest.length ≤ n := by
        simp only [List.length_cons] at hs
        omega
      by_cases hsw : startsWith sep (c :: rest) = true
      · rw [goSplit_cons_match sep c rest hsep hsw] at ht
        rcases List.mem_cons.mp ht with rfl | hmem
        · exact containsSub_nil_false sep hsep
        · have hdl : (List.drop sep.length (c :: rest)).length ≤ n := by
            simp only [List.length_drop, List.length_cons]
            omega
          exact ih (List.drop sep.length (c :: rest)) hdl t hmem
      · rw [goSplit_cons_nomatch sep c rest hsep (Bool.not_eq_true _ ▸ hsw)] at ht
        rcases hT : goSplit sep rest with _ | ⟨t₀, ts⟩
        · exact absurd hT (goSplit_ne_nil sep rest hsep)
        · rw [hT] at ht
          simp only at ht
          rcases List.mem_cons.mp ht with rfl | hmem
          · rw [containsSub_cons]
            have h1 : containsSub sep t₀ = false := by
              have := ih rest hrest t₀
              rw [hT] at this
              exact this (List.mem_cons_self t₀ ts)
            have h2 : startsWith sep (c :: t₀) = false := by
              by_contra hc
              rw [Bool.not_eq_false] at hc
              obtain ⟨u, hu⟩ := goSplit_head_prefix sep hsep rest.length rest le_rfl
              rw [hT] at hu
              simp only [List.headD_cons] at hu
              have : startsWith sep ((c :: t₀) ++ u) = true := startsWith_append_of _ _ _ hc
              rw [List.cons_append, hu] at this
              exact absurd this hsw
            rw [h1, h2]
            rfl
          · have := ih rest hrest t
            rw [hT] at this
            exact this (List.mem_cons_of_mem t₀ hmem)

theorem containsSub_two_le (sep : Str) (hsep : sep ≠ []) :
    ∀ (n : Nat) (s : Str), s.length ≤ n → containsSub sep s = true →
      2 ≤ (goSplit sep s).length := by
  intro n
  induction n with
  | zero =>
    intro s hs hc
    have : s = [] := List.length_eq_zero.mp (Nat.le_zero.mp hs)
    subst this
    rw [containsSub_nil_false sep hsep] at hc
    cases hc
  | succ n ih =>
    intro s hs hc
    cases s with
    | nil =>
      rw [containsSub_nil_false sep hsep] at hc
      cases hc
    | cons c rest =>
      have hrest : rest.length ≤ n := by
        simp only [List.length_cons] at hs
        omega
      by_cases hsw : startsWith sep (c :: rest) = true
      · rw [goSplit_cons_match sep c rest hsep hsw]
        have hTne : goSplit sep (List.drop sep.length (c :: rest)) ≠ [] :=
          goSplit_ne_nil sep _ hsep
        have : 0 < (goSplit sep (List.drop sep.length (c :: rest))).length :=
          List.length_pos.mpr hTne
        simp only [List.length_cons]
        omega
      · rw [containsSub_cons] at hc
        rw [Bool.not_eq_true] at hsw
        rw [hsw, Bool.false_or] at hc
        have h2 := ih rest hrest hc
        rw [goSplit_cons_nomatch sep c rest hsep hsw]
        rcases hT : goSplit sep rest with _ | ⟨t₀, ts⟩
        · exact absurd hT (goSplit_ne_nil sep rest hsep)
        · rw [hT] at h2
          simp only [List.length_cons] at h2 ⊢
          omega

end SplitLemmas

section LastMarker

theorem drop_append_add {α : Type} (l₁ l₂ : List α) (d : Nat) :
    (l₁ ++ l₂).drop (l₁.length + d) = l₂.drop d := by
  induction l₁ with
  | nil => simp
  | cons a l ih =>
    have h : (a :: l).length + d = (l.length + d) + 1 := by
      simp only [List.length_cons]
      omega
    rw [List.cons_append, h, List.drop_succ_cons, ih]

theorem drop_append_le {α : Type} (l₁ l₂ : List α) (d : Nat) (h : d ≤ l₁.length) :
    (l₁ ++ l₂).drop d = l₁.drop d ++ l₂ := by
  conv_lhs => rw [← List.take_append_drop d l₁]
  rw [List.append_assoc, List.drop_left' (List.length_take_of_le h)]

theorem take_append_le {α : Type} (l₁ l₂ : List α) (d : Nat) (h : d ≤ l₁.length) :
    (l₁ ++ l₂).take d = l₁.take d := by
  conv_lhs => rw [← List.take_append_drop d l₁]
  rw [List.append_assoc, List.take_left' (List.length_take_of_le h)]

/-- A separator with no nonempty proper border: no proper suffix of it
is also a prefix of it. Occurrences of such a separator can never
overlap, which is what makes the last-marker split of MainWorktree
coincide with the last substring occurrence. -/
def BorderFree (sep : Str) : Prop :=
  ∀ d, 0 < d → d < sep.length → sep.drop d ≠ sep.take (sep.length - d)

theorem borderFree_gitStore : BorderFree GitStorePath := by
  intro d h1 h2
  have hlen : GitStorePath.length = 4 := by decide
  rw [hlen] at h2
  interval_cases d <;> decide

/-- The last-occurrence property of the Go split: rejoining all tokens
but the last gives exactly the part of the string strictly before the
last occurrence of the separator — witnessed by a decomposition stating
that the separator occurs right after the rejoined prefix, and that no
decomposition puts an occurrence later. -/
theorem goSplit_last_marker (sep s : Str) (hsep : sep ≠ []) (hb : BorderFree sep)
    (h2 : 2 ≤ (goSplit sep s).length) :
    (∃ t, s = List.intercalate sep (goSplit sep s).dropLast ++ sep ++ t) ∧
    (∀ x y, s = x ++ sep ++ y →
      x.length ≤ (List.intercalate sep (goSplit sep s).dropLast).length) := by
  have hne : goSplit sep s ≠ [] := goSplit_ne_nil sep s hsep
  set tokens := goSplit sep s with htok
  set tl := tokens.getLast hne with htl
  have hsplit : tokens.dropLast ++ [tl] = tokens := List.dropLast_append_getLast hne
  have hD : tokens.dropLast ≠ [] := by
    intro h
    rw [h, List.nil_append] at hsplit
    rw [← hsplit] at h2
    simp at h2
  have hjoin : List.intercalate sep tokens = s := goSplit_join sep hsep s.length s le_rfl
  set R := List.intercalate sep tokens.dropLast with hR
  have hs : s = R ++ sep ++ tl := by
    conv_lhs => rw [← hjoin, ← hsplit]
    rw [intercalate_append_single sep tl _ hD]
  refine ⟨⟨tl, hs⟩, ?_⟩
  intro x y hxy
  by_contra hlt
  push_neg at hlt
  set d := x.length - R.length with hd
  have hd1 : 1 ≤ d := by omega
  have e1 : List.drop x.length s = sep ++ y := by
    rw [hxy, List.append_assoc, List.drop_left]
  have e2 : List.drop x.length s = List.drop d (sep ++ tl) := by
    have hx : x.length = R.length + d := by omega
    rw [hs, List.append_assoc, hx, drop_append_add]
  have key : sep ++ y = List.drop d (sep ++ tl) := by rw [← e1, e2]
  by_cases hcase : d < sep.length
  · rw [drop_append_le sep tl d (le_of_lt hcase)] at key
    have t1 : (sep ++ y).take (sep.length - d) = sep.take (sep.length - d) :=
      take_append_le sep y _ (by omega)
    have t2 : (sep.drop d ++ tl).take (sep.length - d) = sep.drop d :=
      List.take_left' (by simp)
    have hbord : sep.take (sep.length - d) = sep.drop d := by
      rw [← t1, key, t2]
    exact hb d (by omega) hcase hbord.symm
  · push_neg at hcase
    have hsplit2 : List.drop d (sep ++ tl) = tl.drop (d - sep.length) := by
      conv_lhs => rw [show d = sep.length + (d - sep.length) by omega]
      rw [drop_append_add]
    rw [hsplit2] at key
    have hsw : startsWith sep (tl.drop (d - sep.length)) = true := by
      rw [← key]
      exact startsWith_self_append sep y
    have hcontain : containsSub sep tl = true :=
      containsSub_of_startsWith_drop sep hsep tl (d - sep.length) hsw
    have hfree : containsSub sep tl = false :=
      goSplit_tokens_free sep hsep s.length s le_rfl tl (htok ▸ List.getLast_mem hne)
    rw [hfree] at hcontain
    cases hcontain

end LastMarker

section CharSplit

theorem startsWith_single (a b : Char) (r : Str) :
    startsWith [a] (b :: r) = if a = b then true else false := by
  by_cases h : a = b <;> simp [startsWith, h]

theorem containsSub_single_iff (c : Char) (s : Str) :
    containsSub [c] s = true ↔ c ∈ s := by
  induction s with
  | nil => simp [containsSub]
  | cons d r ih =>
    rw [containsSub_cons, startsWith_single]
    by_cases h : c = d
    · subst h
      simp
    · simp [h, ih, Ne.symm h]

theorem goSplit_no_occurrence (sep : Str) (hsep : sep ≠ []) :
    ∀ (n : Nat) (s : Str), s.length ≤ n → containsSub sep s = false →
      goSplit sep s = [s] := by
  intro n
  induction n with
  | zero =>
    intro s hs _
    have : s = [] := List.length_eq_zero.mp (Nat.le_zero.mp hs)
    subst this
    exact goSplit_nil sep hsep
  | succ n ih =>
    intro s hs hc
    cases s with
    | nil => exact goSplit_nil sep hsep
    | cons c rest =>
      rw [containsSub_cons, Bool.or_eq_false_iff] at hc
      rw [goSplit_cons_nomatch sep c rest hsep hc.1]
      have hrest : rest.length ≤ n := by
        simp only [List.length_cons] at hs
        omega
      rw [ih rest hrest hc.2]

theorem goSplit_char_cons (c : Char) (r : Str) :
    goSplit [c] (c :: r) = [] :: goSplit [c] r := by
  have h := goSplit_cons_match [c] c r (by simp) (by simp [startsWith])
  simpa using h

theorem goSplit_char_append (c : Char) (x y : Str) :
    goSplit [c] (x ++ c :: y) = goSplit [c] x ++ goSplit [c] y := by
  induction x with
  | nil =>
    rw [List.nil_append, goSplit_char_cons, goSplit_nil [c] (by simp)]
    rfl
  | cons d xs ih =>
    by_cases hdc : d = c
    · subst hdc
      rw [List.cons_append, goSplit_char_cons, goSplit_char_cons, ih, List.cons_append]
    · have hne : c ≠ d := Ne.symm hdc
      have h1 : startsWith [c] (d :: (xs ++ c :: y)) = false := by
        rw [startsWith_single, if_neg hne]
      have h2 : startsWith [c] (d :: xs) = false := by
        rw [startsWith_single, if_neg hne]
      rw [List.cons_append, goSplit_cons_nomatch [c] d (xs ++ c :: y) (by simp) h1,
        goSplit_cons_nomatch [c] d xs (by simp) h2, ih]
      rcases hX : goSplit [c] xs with _ | ⟨t, ts⟩
      · exact absurd hX (goSplit_ne_nil [c] xs (by simp))
      · simp

theorem goSplit_char_intercalate (c : Char) (segs : List Str) (hne : segs ≠ [])
    (hfree : ∀ t ∈ segs, c ∉ t) :
    goSplit [c] (List.intercalate [c] segs) = segs := by
  induction segs with
  | nil => exact absurd rfl hne
  | cons t ts ih =>
    cases ts with
    | nil =>
      rw [intercalate_single]
      refine goSplit_no_occurrence [c] (by simp) t.length t le_rfl ?_
      rw [← Bool.not_eq_true, containsSub_single_iff]
      exact hfree t (List.mem_singleton_self t)
    | cons u us =>
      rw [intercalate_cons₂]
      have hx : t ++ [c] ++ List.intercalate [c] (u :: us)
          = t ++ c :: List.intercalate [c] (u :: us) := by simp
      rw [hx, goSplit_char_append]
      have ht : goSplit [c] t = [t] := by
        refine goSplit_no_occurrence [c] (by simp) t.length t le_rfl ?_
        rw [← Bool.not_eq_true, containsSub_single_iff]
        exact hfree t (List.mem_cons_self t (u :: us))
      rw [ht, ih (by simp) (fun v hv => hfree v (List.mem_cons_of_mem t hv))]
      rfl

end CharSplit

section CleanLemmas

theorem takeWhile_append_stop {α : Type} (p : α → Bool) (u : List α) (v : α) (w : List α)
    (hu : ∀ c ∈ u, p c = true) (hv : p v = false) :
    (u ++ v :: w).takeWhile p = u := by
  induction u with
  | nil => simp [List.takeWhile_cons, hv]
  | cons a l ih =>
    have ha : p a = true := hu a (List.mem_cons_self a l)
    rw [List.cons_append, List.takeWhile_cons, ha]
    simp only [if_true]
    rw [ih (fun c hc => hu c (List.mem_cons_of_mem a hc))]

/-- A path segment in normal form: nonempty, not a dot segment, and
free of separators. -/
def goodSeg (seg : Str) : Prop :=
  seg ≠ [] ∧ seg ≠ str "." ∧ seg ≠ str ".." ∧ '/' ∉ seg

/-- Characterization of the outputs of filepath.Clean on rooted input:
either the root itself or a slash followed by normal segments joined by
slashes. -/
def IsCleanAbs (p : Str) : Prop :=
  p = str "/" ∨
    ∃ segs, segs ≠ [] ∧ (∀ s ∈ segs, goodSeg s) ∧
      p = '/' :: List.intercalate (str "/") segs

theorem str_slash : str "/" = ['/'] := rfl

theorem cleanStep_good (rooted : Bool) (out : List Str) (seg : Str) (h : goodSeg seg) :
    cleanStep rooted out seg = out ++ [seg] := by
  obtain ⟨h1, h2, h3, -⟩ := h
  rw [cleanStep, if_neg (by simp [h1, h2]), if_neg h3]

theorem cleanStep_skip_nil (rooted : Bool) (out : List Str) :
    cleanStep rooted out [] = out := by
  rw [cleanStep, if_pos (Or.inl rfl)]

theorem cleanStep_skip_dot (rooted : Bool) (out : List Str) :
    cleanStep rooted out (str ".") = out := by
  rw [cleanStep, if_pos (Or.inr rfl)]

theorem foldl_cleanStep_good (rooted : Bool) (segs : List Str)
    (h : ∀ s ∈ segs, goodSeg s) :
    ∀ out, List.foldl (cleanStep rooted) out segs = out ++ segs := by
  induction segs with
  | nil => intro out; simp
  | cons seg rest ih =>
    intro out
    rw [List.foldl_cons, cleanStep_good rooted out seg (h seg (List.mem_cons_self seg rest)),
      ih (fun s hs => h s (List.mem_cons_of_mem seg hs)) (out ++ [seg])]
    simp

theorem foldl_cleanStep_preserves (segs : List Str) (hfree : ∀ s ∈ segs, '/' ∉ s) :
    ∀ out, (∀ s ∈ out, goodSeg s) →
      ∀ s ∈ List.foldl (cleanStep true) out segs, goodSeg s := by
  induction segs with
  | nil => intro out hout s hs; exact hout s hs
  | cons seg rest ih =>
    intro out hout s hs
    rw [List.foldl_cons] at hs
    refine ih (fun t ht => hfree t (List.mem_cons_of_mem seg ht)) (cleanStep true out seg)
      ?_ s hs
    intro t ht
    by_cases h1 : seg = [] ∨ seg = str "."
    · rw [cleanStep, if_pos h1] at ht
      exact hout t ht
    · by_cases h2 : seg = str ".."
      · rw [cleanStep, if_neg h1, if_pos h2] at ht
        simp only [if_true] at ht
        exact hout t ((List.dropLast_sublist out).subset ht)
      · rw [cleanStep, if_neg h1, if_neg h2] at ht
        rcases List.mem_append.mp ht with hmem | hmem
        · exact hout t hmem
        · rcases List.mem_singleton.mp hmem with rfl
          push_neg at h1
          exact ⟨h1.1, h1.2, h2, hfree _ (List.mem_cons_self _ rest)⟩

theorem isAbs_cons (p : Str) (h : isAbs p = true) : ∃ t, p = '/' :: t := by
  rcases (startsWith_iff (str "/") p).mp h with ⟨t, rfl⟩
  exact ⟨t, rfl⟩

theorem clean_rooted_isCleanAbs (q : Str) (h : isAbs q = true) : IsCleanAbs (clean q) := by
  obtain ⟨t, rfl⟩ := isAbs_cons q h
  rw [clean]
  rw [if_neg (by simp)]
  simp only [h, if_true]
  have hfree : ∀ s ∈ cleanSegs true (goSplit (str "/") ('/' :: t)), goodSeg s := by
    refine foldl_cleanStep_preserves _ ?_ [] (by simp)
    intro s hs
    have hts := goSplit_tokens_free (str "/") (by simp [str_slash]) ('/' :: t).length ('/' :: t)
      le_rfl s hs
    rw [← containsSub_single_iff, ← str_slash]
    simp [hts]
  rcases hout : cleanSegs true (goSplit (str "/") ('/' :: t)) with _ | ⟨s₀, ss⟩
  · rw [intercalate_nil]
    rw [if_neg (by simp [str_slash])]
    left
    simp
  · rw [if_neg (by simp [str_slash])]
    right
    refine ⟨s₀ :: ss, by simp, ?_, by simp [str_slash]⟩
    rw [← hout]
    exact hfree

end CleanLemmas

section JoinLemmas

theorem isAbs_cons_slash (x : Str) : isAbs ('/' :: x) = true := by
  simp [isAbs, str_slash, startsWith]

theorem clean_rooted_eq (q : Str) (h : isAbs q = true) :
    clean q = '/' :: List.intercalate (str "/") (cleanSegs true (goSplit (str "/") q)) := by
  have hne : q ≠ [] := by
    rcases isAbs_cons q h with ⟨t, rfl⟩
    simp
  rw [clean, if_neg hne]
  simp only [h, if_true]
  rw [if_neg (by simp [str_slash])]
  simp [str_slash]

theorem goodSeg_no_slash_contains (seg : Str) (h : goodSeg seg) :
    containsSub ['/'] seg = false := by
  rw [← Bool.not_eq_true, containsSub_single_iff]
  exact h.2.2.2

theorem goJoinPath_good (a seg : Str) (ha : IsCleanAbs a) (hseg : goodSeg seg) :
    goJoinPath a seg = (if a = str "/" then [] else a) ++ '/' :: seg := by
  have hane : a ≠ [] := by
    rcases ha with rfl | ⟨segs, -, -, rfl⟩ <;> simp [str_slash]
  rw [goJoinPath, if_neg (fun hc => hane hc.1), if_neg hane, if_neg hseg.1]
  rcases ha with ha | ⟨segs, hne, hgood, haeq⟩
  · rw [ha, if_pos rfl, List.nil_append]
    have hform : str "/" ++ str "/" ++ seg = '/' :: ('/' :: seg) := by simp [str_slash]
    rw [hform, clean_rooted_eq _ (isAbs_cons_slash _)]
    have hsp : goSplit (str "/") ('/' :: '/' :: seg) = [[], [], seg] := by
      rw [str_slash, goSplit_char_cons, goSplit_char_cons,
        goSplit_no_occurrence ['/'] (by simp) seg.length seg le_rfl
          (goodSeg_no_slash_contains seg hseg)]
    rw [hsp]
    have hcs : cleanSegs true [[], [], seg] = [seg] := by
      rw [cleanSegs, List.foldl_cons, cleanStep_skip_nil, List.foldl_cons, cleanStep_skip_nil,
        List.foldl_cons, cleanStep_good _ _ _ hseg, List.foldl_nil, List.nil_append]
    rw [hcs, intercalate_single]
  · have hIne : List.intercalate (str "/") segs ≠ [] := by
      rcases segs with _ | ⟨t, ts⟩
      · exact absurd rfl hne
      · exact intercalate_ne_nil _ t ts (hgood t (List.mem_cons_self t ts)).1
    have hanotroot : a ≠ str "/" := by
      rw [haeq, str_slash]
      intro hcontra
      injection hcontra with h1 h2
      rw [str_slash] at hIne
      exact hIne h2
    rw [if_neg hanotroot]
    have hform : a ++ str "/" ++ seg
        = '/' :: (List.intercalate (str "/") segs ++ '/' :: seg) := by
      rw [haeq]
      simp [str_slash]
    rw [hform, clean_rooted_eq _ (isAbs_cons_slash _)]
    have hsegsfree : ∀ t ∈ segs, '/' ∉ t := fun t ht => (hgood t ht).2.2.2
    have hsp : goSplit (str "/") ('/' :: (List.intercalate (str "/") segs ++ '/' :: seg))
        = [] :: (segs ++ [seg]) := by
      rw [str_slash, goSplit_char_cons, goSplit_char_append,
        goSplit_char_intercalate '/' segs hne hsegsfree,
        goSplit_no_occurrence ['/'] (by simp) seg.length seg le_rfl
          (goodSeg_no_slash_contains seg hseg)]
    rw [hsp]
    have hcs : cleanSegs true ([] :: (segs ++ [seg])) = segs ++ [seg] := by
      rw [cleanSegs, List.foldl_cons, cleanStep_skip_nil]
      have hok : ∀ s ∈ segs ++ [seg], goodSeg s := by
        intro s hs
        rcases List.mem_append.mp hs with h | h
        · exact hgood s h
        · rcases List.mem_singleton.mp h with rfl
          exact hseg
      rw [foldl_cleanStep_good true (segs ++ [seg]) hok [], List.nil_append]
    rw [hcs, intercalate_append_single _ _ _ hne, haeq]
    simp [str_slash]

theorem goJoinPath_root_arg (a : Str) (ha : IsCleanAbs a) (hnr : a ≠ str "/") :
    goJoinPath a (str "/") = a := by
  rcases ha with h | ⟨segs, hsegne, hgood, haeq⟩
  · exact absurd h hnr
  · have hane : a ≠ [] := by
      rw [haeq]
      simp
    rw [goJoinPath, if_neg (fun hc => hane hc.1), if_neg hane, if_neg (by simp [str_slash])]
    have hform : a ++ str "/" ++ str "/"
        = '/' :: (List.intercalate (str "/") segs ++ '/' :: ['/']) := by
      rw [haeq]
      simp [str_slash]
    rw [hform, clean_rooted_eq _ (isAbs_cons_slash _)]
    have hsegsfree : ∀ t ∈ segs, '/' ∉ t := fun t ht => (hgood t ht).2.2.2
    have hsp : goSplit (str "/") ('/' :: (List.intercalate (str "/") segs ++ '/' :: ['/']))
        = [] :: (segs ++ [[], []]) := by
      rw [str_slash, goSplit_char_cons, goSplit_char_append,
        goSplit_char_intercalate '/' segs hsegne hsegsfree, goSplit_char_cons,
        goSplit_nil ['/'] (by simp)]
    rw [hsp]
    have hcs : cleanSegs true ([] :: (segs ++ [[], []])) = segs := by
      rw [cleanSegs, List.foldl_cons, cleanStep_skip_nil, List.foldl_append,
        foldl_cleanStep_good true segs hgood [], List.nil_append, List.foldl_cons,
        cleanStep_skip_nil, List.foldl_cons, cleanStep_skip_nil, List.foldl_nil]
    rw [hcs, haeq]

theorem goAbs_isCleanAbs (cwd p : Str) (hcwd : isAbs cwd = true) :
    IsCleanAbs (goAbs cwd p) := by
  rw [goAbs]
  by_cases hp : isAbs p = true
  · rw [if_pos hp]
    exact clean_rooted_isCleanAbs p hp
  · rw [if_neg hp]
    have hcne : cwd ≠ [] := by
      rcases isAbs_cons cwd hcwd with ⟨t, rfl⟩
      simp
    rw [goJoinPath]
    by_cases hpe : p = []
    · rw [if_neg (fun hc => hcne hc.1), if_neg hcne, if_pos hpe]
      exact clean_rooted_isCleanAbs cwd hcwd
    · rw [if_neg (fun hc => hcne hc.1), if_neg hcne, if_neg hpe]
      refine clean_rooted_isCleanAbs _ ?_
      rw [List.append_assoc]
      exact startsWith_append_of _ _ _ hcwd

end JoinLemmas

section BaseLemmas

theorem base_good (a : Str) (ha : IsCleanAbs a) (hnr : a ≠ str "/") :
    goodSeg (base a) := by
  rcases ha with h | ⟨segs, hsegne, hgood, haeq⟩
  · exact absurd h hnr
  · set t := segs.getLast hsegne with ht
    have htgood : goodSeg t := hgood t (List.getLast_mem hsegne)
    obtain ⟨z, hz⟩ : ∃ z, a = z ++ '/' :: t := by
      have hsplit : segs.dropLast ++ [t] = segs := List.dropLast_append_getLast hsegne
      rcases hD : segs.dropLast with _ | ⟨d, ds⟩
      · have hsegeq : segs = [t] := by
          rw [← hsplit, hD, List.nil_append]
        refine ⟨[], ?_⟩
        rw [haeq, hsegeq, intercalate_single, List.nil_append]
      · have hDne : segs.dropLast ≠ [] := by
          rw [hD]
          simp
        refine ⟨'/' :: List.intercalate (str "/") segs.dropLast, ?_⟩
        rw [haeq, ← hsplit, intercalate_append_single _ _ _ hDne]
        simp [str_slash]
    have hane : a ≠ [] := by
      rw [hz]
      simp
    have hrev : a.reverse = t.reverse ++ '/' :: z.reverse := by
      rw [hz]
      simp
    obtain ⟨c₀, w, hc0⟩ : ∃ c₀ w, t.reverse = c₀ :: w := by
      rcases hh : t.reverse with _ | ⟨c₀, w⟩
      · have : t = [] := by simpa using congrArg List.reverse hh
        exact absurd this htgood.1
      · exact ⟨c₀, w, rfl⟩
    have hc0mem : c₀ ∈ t := by
      have : c₀ ∈ t.reverse := by
        rw [hc0]
        exact List.mem_cons_self _ _
      simpa using this
    have hc0ne : ¬ c₀ = '/' := fun h => htgood.2.2.2 (h ▸ hc0mem)
    have hq : a.reverse.dropWhile (fun c => c = '/') = a.reverse := by
      rw [hrev, hc0, List.cons_append, List.dropWhile_cons]
      simp [hc0ne]
    rw [base, if_neg hane]
    simp only [hq, List.reverse_reverse, if_neg hane]
    have htw : a.reverse.takeWhile (fun c => ¬ c = '/') = t.reverse := by
      rw [hrev]
      refine takeWhile_append_stop _ _ _ _ ?_ (by simp)
      intro c hc
      have hct : c ∈ t := by simpa using hc
      simp only [decide_eq_true_eq, decide_not]
      simp only [Bool.not_eq_true', decide_eq_false_iff_not]
      exact fun hcc => htgood.2.2.2 (hcc ▸ hct)
    rw [htw, List.reverse_reverse]
    exact htgood

theorem base_root : base (str "/") = str "/" := by decide

end BaseLemmas

section MapLemmas

theorem findEntry_le_maxKeyLen (es : List (Str × Node)) (k : Str) (v : Node)
    (h : findEntry es k = some v) : k.length ≤ maxKeyLen es := by
  induction es with
  | nil => cases h
  | cons e rest ih =>
    obtain ⟨k₀, v₀⟩ := e
    rw [findEntry] at h
    by_cases hk : k₀ = k
    · subst hk
      exact le_max_left _ _
    · rw [if_neg hk] at h
      exact le_trans (ih h) (le_max_right _ _)

theorem findEntry_long_none (es : List (Str × Node)) (k : Str)
    (h : maxKeyLen es < k.length) : findEntry es k = none := by
  cases hf : findEntry es k with
  | none => rfl
  | some v => exact absurd (findEntry_le_maxKeyLen es k v hf) (by omega)

theorem findEntry_erase_self (k : Str) (es : List (Str × Node)) :
    findEntry (eraseKey k es) k = none := by
  induction es with
  | nil => rfl
  | cons e rest ih =>
    obtain ⟨k₀, v₀⟩ := e
    rw [eraseKey]
    by_cases hk : k₀ = k
    · rw [if_pos hk]
      exact ih
    · rw [if_neg hk, findEntry, if_neg hk]
      exact ih

theorem findEntry_erase_ne (k k' : Str) (es : List (Str × Node)) (h : k ≠ k') :
    findEntry (eraseKey k es) k' = findEntry es k' := by
  induction es with
  | nil => rfl
  | cons e rest ih =>
    obtain ⟨k₀, v₀⟩ := e
    rw [eraseKey]
    by_cases hk : k₀ = k
    · subst hk
      rw [if_pos rfl, findEntry, if_neg h]
      exact ih
    · rw [if_neg hk, findEntry, findEntry]
      by_cases hk' : k₀ = k'
      · rw [if_pos hk', if_pos hk']
      · rw [if_neg hk', if_neg hk']
        exact ih

theorem findEntry_insert_self (k : Str) (v : Node) (es : List (Str × Node)) :
    findEntry (insertEntry k v es) k = some v := by
  rw [insertEntry, findEntry, if_pos rfl]

theorem findEntry_insert_ne (k k' : Str) (v : Node) (es : List (Str × Node)) (h : k ≠ k') :
    findEntry (insertEntry k v es) k' = findEntry es k' := by
  rw [insertEntry, findEntry, if_neg h]
  exact findEntry_erase_ne k k' es h

theorem freshTmpName_length (fs : FS) :
    (freshTmpName fs).length = maxKeyLen fs.entries + 20 := by
  rw [freshTmpName, List.length_append, List.length_replicate]
  have : (str "/tmp/convert-grove-").length = 19 := by decide
  omega

theorem goodSeg_grove_stem (n : Nat) :
    goodSeg (str "convert-grove-" ++ List.replicate n 'x') := by
  have hl : (str "convert-grove-" ++ List.replicate n 'x').length = 14 + n := by
    rw [List.length_append, List.length_replicate]
    have h14 : (str "convert-grove-").length = 14 := by decide
    omega
  refine ⟨?_, ?_, ?_, ?_⟩
  · intro h
    rw [h] at hl
    simp only [List.length_nil] at hl
    omega
  · intro h
    have := congrArg List.length h
    rw [hl] at this
    have h1 : (str ".").length = 1 := by decide
    omega
  · intro h
    have := congrArg List.length h
    rw [hl] at this
    have h2 : (str "..").length = 2 := by decide
    omega
  · intro h
    rcases List.mem_append.mp h with hm | hm
    · exact absurd hm (by decide)
    · exact absurd (List.eq_of_mem_replicate hm) (by decide)

theorem freshTmpName_isCleanAbs (fs : FS) : IsCleanAbs (freshTmpName fs) := by
  right
  refine ⟨[str "tmp", str "convert-grove-" ++ List.replicate (maxKeyLen fs.entries + 1) 'x'],
    by simp, ?_, ?_⟩
  · intro s hs
    rcases List.mem_cons.mp hs with rfl | hs
    · exact ⟨by decide, by decide, by decide, by decide⟩
    · rcases List.mem_singleton.mp hs with rfl
      exact goodSeg_grove_stem _
  · rw [intercalate_cons₂, intercalate_single, freshTmpName]
    have hstem : str "/tmp/convert-grove-"
        = '/' :: (str "tmp" ++ str "/" ++ str "convert-grove-") := by decide
    rw [hstem]
    simp [List.append_assoc]

theorem freshTmpName_not_root (fs : FS) : freshTmpName fs ≠ str "/" := by
  intro h
  have := congrArg List.length h
  rw [freshTmpName_length] at this
  have h1 : (str "/").length = 1 := by decide
  omega

end MapLemmas

section MoreSplit

theorem goSplit_char_length (c : Char) (s : Str) :
    (goSplit [c] s).length = s.count c + 1 := by
  induction s with
  | nil =>
    rw [goSplit_nil [c] (by simp)]
    simp
  | cons d r ih =>
    by_cases hdc : d = c
    · subst hdc
      rw [goSplit_char_cons]
      simp only [List.length_cons, ih, List.count_cons]
      simp
    · have h1 : startsWith [c] (d :: r) = false := by
        rw [startsWith_single, if_neg (fun h => hdc h.symm)]
      rw [goSplit_cons_nomatch [c] d r (by simp) h1]
      rcases hT : goSplit [c] r with _ | ⟨t, ts⟩
      · exact absurd hT (goSplit_ne_nil [c] r (by simp))
      · rw [hT] at ih
        simp only [List.length_cons] at ih ⊢
        rw [List.count_cons_of_ne (fun h => hdc h.symm)]
        omega

end MoreSplit

/-- C10: for every successfully opened local repository, regardless of
the repository state, Repository.DefaultBranch returns the constant
string "main" with no error. -/
theorem localDefaultBranch_constant_main (r : Local.Repository) :
    r.DefaultBranch = .ok (str "main") := rfl

/-- C3: parsing a .git link file line that is missing the gitdir:
prefix, or whose trimmed remainder is empty, or is neither absolute nor
local, fails with a FormatError and returns the empty path; and
whenever parsing errors, the returned path is empty (no partial
result). -/
theorem readGitFileLine_malformed :
    (∀ line : Str,
      (startsWith gitFilePfx line = false ∨
        trimSpace (trimPfx gitFilePfx line) = [] ∨
        (isAbs (trimSpace (trimPfx gitFilePfx line)) = false ∧
          isLocal (trimSpace (trimPfx gitFilePfx line)) = false)) →
      readGitFileLine line = ([], some GroveError.formatError)) ∧
    (∀ (line : Str) (e : GroveError), (readGitFileLine line).2 = some e →
      (readGitFileLine line).1 = []) := by
  constructor
  · intro line h
    simp only [readGitFileLine]
    rcases h with h | h | h
    · rw [if_pos (by simp [h])]
    · by_cases hp : startsWith gitFilePfx line = true
      · rw [if_neg (by simp [hp]), if_pos (Or.inr h)]
      · rw [if_pos (by simpa using hp)]
    · by_cases hp : startsWith gitFilePfx line = true
      · rw [if_neg (by simp [hp]), if_pos (Or.inl ⟨by simp [h.1], by simp [h.2]⟩)]
      · rw [if_pos (by simpa using hp)]
  · intro line e h
    simp only [readGitFileLine] at h ⊢
    split_ifs at h ⊢ <;> rfl

/-- Witness for C3 at the concrete malformed line "garbage". -/
theorem readGitFileLine_malformed_witness :
    readGitFileLine (str "garbage") = ([], some GroveError.formatError) :=
  readGitFileLine_malformed.1 (str "garbage") (by decide)

/-- C7: when opening the repository fails, ToGrove returns that error
at once and the filesystem is untouched (the temporary directory,
renames, and directory creation all come later). -/
theorem toGrove_failfast (fs : FS) (path : Str) (e : GroveError)
    (h : Local.NewRepository fs path = .error e) :
    Convert.ToGrove fs path = (fs, some e) := by
  rw [Convert.ToGrove, h]

/-- Witness for C7 on an empty filesystem where the open fails. -/
theorem toGrove_failfast_witness :
    Convert.ToGrove fsEmpty (str "/nope") = (fsEmpty, some GroveError.ioError) :=
  toGrove_failfast fsEmpty (str "/nope") GroveError.ioError (by decide)

/-- C5: AddTree on a target that resolves to an existing non-empty
directory fails with a ValidationError and leaves the filesystem (and
hence the set of worktrees) unchanged; the worktree manager is only
reached after the emptiness check passes. -/
theorem addTree_nonempty_validation (fs : FS) (g : GrovePkg.Grove) (p t : Str) (d : DirMeta)
    (hres : GrovePkg.Grove.resolveTreePath fs g p = .ok t)
    (hstat : statFS fs t = some (Node.dir d))
    (hne : d.nonEmpty = true) :
    GrovePkg.Grove.AddTree fs g p = (fs, some GroveError.validationError) := by
  simp only [GrovePkg.Grove.AddTree, hres]
  have hmk : mkdirAllFS fs t 0o700 = .ok fs := by
    rw [mkdirAllFS, hstat]
  simp only [hmk, Local.Repository.AddWorktree]
  have hrd : readDirFS fs t = .ok true := by
    simp only [readDirFS, hstat, hne]
  simp only [hrd, if_true]

/-- Witness for C5 at the non-empty directory /abs/path. -/
theorem addTree_nonempty_validation_witness :
    GrovePkg.Grove.AddTree fsC5 groveC5 (str "/abs/path")
      = (fsC5, some GroveError.validationError) :=
  addTree_nonempty_validation fsC5 groveC5 (str "/abs/path") (str "/abs/path")
    ⟨3, true, false, [], 0o755⟩ (by decide) (by decide) (by decide)

/-- C6: a successful HTTP(S) credential acquisition stores the
credential on the resolver, and every later acquisition on the same
resolver returns that same credential with the console untouched (no
further prompt). -/
theorem httpAuth_caches (a : HTTPAuthentication) (c : Console) (m : BasicAuth)
    (a' : HTTPAuthentication) (c' : Console)
    (h : HTTPAuthentication.NewAuthMethod a c = (.ok m, a', c')) :
    a'.authMethod = some m ∧
      ∀ c₂ : Console, HTTPAuthentication.NewAuthMethod a' c₂ = (.ok m, a', c₂) := by
  obtain ⟨am⟩ := a
  obtain ⟨stdin, prompts⟩ := c
  cases am with
  | some m₀ =>
    simp only [HTTPAuthentication.NewAuthMethod, Prod.mk.injEq, Except.ok.injEq] at h
    obtain ⟨rfl, rfl, rfl⟩ := h
    exact ⟨rfl, fun c₂ => by simp [HTTPAuthentication.NewAuthMethod]⟩
  | none =>
    rcases stdin with _ | ⟨r, rest⟩
    · simp [HTTPAuthentication.NewAuthMethod, HTTPAuthentication.createCachedAuthMethod,
        consoleRead] at h
    · rcases r with _ | u
      · simp [HTTPAuthentication.NewAuthMethod, HTTPAuthentication.createCachedAuthMethod,
          consoleRead] at h
      · rcases rest with _ | ⟨r₂, rest₂⟩
        · simp [HTTPAuthentication.NewAuthMethod, HTTPAuthentication.createCachedAuthMethod,
            consoleRead] at h
        · rcases r₂ with _ | p
          · simp [HTTPAuthentication.NewAuthMethod, HTTPAuthentication.createCachedAuthMethod,
              consoleRead] at h
          · simp only [HTTPAuthentication.NewAuthMethod,
              HTTPAuthentication.createCachedAuthMethod, consoleRead, Prod.mk.injEq,
              Except.ok.injEq] at h
            obtain ⟨rfl, rfl, rfl⟩ := h
            exact ⟨rfl, fun c₂ => by simp [HTTPAuthentication.NewAuthMethod]⟩

/-- Witness for C6: a first acquisition from concrete console input
caches the credential, and repeated acquisition returns it unchanged. -/
theorem httpAuth_caches_witness :
    (⟨some ⟨str "user", str "pass"⟩⟩ : HTTPAuthentication).authMethod
        = some ⟨str "user", str "pass"⟩ ∧
      ∀ c₂ : Console,
        HTTPAuthentication.NewAuthMethod ⟨some ⟨str "user", str "pass"⟩⟩ c₂
          = (.ok ⟨str "user", str "pass"⟩, ⟨some ⟨str "user", str "pass"⟩⟩, c₂) :=
  httpAuth_caches ⟨none⟩ ⟨[some (str "user"), some (str "pass")], []⟩
    ⟨str "user", str "pass"⟩ ⟨some ⟨str "user", str "pass"⟩⟩
    ⟨[], [str "username: ", str "password: "]⟩ (by decide)

/-- C9 counterexample: the URL ssh://@host:repo is classified SSH, its
remainder splits on the at-sign into exactly two parts of which the
first is empty (so not two non-trivial parts), and yet the derivation
succeeds with the empty username instead of failing. -/
theorem sshAuth_nontrivial_cex :
    AuthMethod (str "ssh://@host:repo") = .ok (.ssh ⟨str "ssh://@host:repo"⟩) ∧
    (goSplit (str "@") (trimPfx (str "ssh://") (str "ssh://@host:repo"))).length = 2 ∧
    (goSplit (str "@") (trimPfx (str "ssh://") (str "ssh://@host:repo"))).headD [] = [] ∧
    SSHAuthentication.NewAuthMethod ⟨str "ssh://@host:repo"⟩
      = .ok (⟨str "@host:repo"⟩, .sshAgent []) := by decide

/-- C9 (amended): SSH authentication derivation strips an ssh:// prefix
and splits on the at-sign; it fails with a FormatError exactly when the
split does not yield exactly two parts — equivalently, when the
remainder does not contain exactly one at-sign — and otherwise the part
before the at-sign (possibly empty) becomes the username. -/
theorem sshAuthMethod_split (a : SSHAuthentication) :
    ((goSplit (str "@") (trimPfx (str "ssh://") a.URL)).length ≠ 2 →
      a.NewAuthMethod = .error .formatError) ∧
    ((goSplit (str "@") (trimPfx (str "ssh://") a.URL)).length = 2 →
      a.NewAuthMethod = .ok (⟨trimPfx (str "ssh://") a.URL⟩,
        .sshAgent ((goSplit (str "@") (trimPfx (str "ssh://") a.URL)).headD []))) ∧
    ((goSplit (str "@") (trimPfx (str "ssh://") a.URL)).length = 2 ↔
      (trimPfx (str "ssh://") a.URL).count '@' = 1) := by
  refine ⟨?_, ?_, ?_⟩
  · intro h
    simp only [SSHAuthentication.NewAuthMethod]
    rw [if_pos h]
  · intro h
    simp only [SSHAuthentication.NewAuthMethod]
    rw [if_neg (by simp [h])]
  · have := goSplit_char_length '@' (trimPfx (str "ssh://") a.URL)
    rw [show (str "@") = ['@'] from rfl]
    omega

/-- Witness for C9 (amended) at the URL git@host:repo.git, where the
derived username is git. -/
theorem sshAuthMethod_split_witness :
    SSHAuthentication.NewAuthMethod ⟨str "git@host:repo.git"⟩
      = .ok (⟨trimPfx (str "ssh://") (str "git@host:repo.git")⟩,
        .sshAgent ((goSplit (str "@")
          (trimPfx (str "ssh://") (str "git@host:repo.git"))).headD [])) :=
  (sshAuthMethod_split ⟨str "git@host:repo.git"⟩).2.1 (by decide)

section ShapeLemmas

theorem splitsAtCh_mem (ch : Char) (s : Str) :
    ∀ p q : Str, (p, q) ∈ splitsAtCh ch s ↔ s = p ++ ch :: q := by
  induction s with
  | nil =>
    intro p q
    simp [splitsAtCh]
  | cons c rest ih =>
    intro p q
    rw [splitsAtCh, List.mem_append]
    constructor
    · rintro (h1 | h2)
      · by_cases hc : c = ch
        · rw [if_pos hc] at h1
          have h := List.mem_singleton.mp h1
          obtain ⟨rfl, rfl⟩ := (Prod.mk.injEq _ _ _ _).mp h
          rw [hc]
          rfl
        · rw [if_neg hc] at h1
          cases h1
      · rcases List.mem_map.mp h2 with ⟨⟨p', q'⟩, hmem, heq⟩
        obtain ⟨rfl, rfl⟩ := (Prod.mk.injEq _ _ _ _).mp heq.symm
        rw [List.cons_append]
        exact congrArg (c :: ·) ((ih p' _).mp hmem)
    · intro heq
      cases p with
      | nil =>
        rw [List.nil_append] at heq
        injection heq with h1 h2
        refine Or.inl ?_
        rw [if_pos h1]
        exact List.mem_singleton.mpr (by rw [h2])
      | cons p₀ ps =>
        rw [List.cons_append] at heq
        injection heq with h1 h2
        subst h1
        exact Or.inr (List.mem_map.mpr ⟨(ps, q), (ih ps q).mpr h2, rfl⟩)

theorem fullShape_iff (s : Str) :
    fullShape s = true ↔
      ∃ x y z : Str, x ≠ [] ∧ x.all nonNL = true ∧ y ≠ [] ∧ y.all nonNL = true ∧
        z ≠ [] ∧ z.all nonNL = true ∧ s = x ++ '@' :: (y ++ ':' :: z) := by
  rw [fullShape, List.any_eq_true]
  constructor
  · rintro ⟨⟨x, r⟩, hmem, hcond⟩
    rw [splitsAtCh_mem '@' s x r] at hmem
    simp only [Bool.and_eq_true, decide_eq_true_eq, List.any_eq_true] at hcond
    obtain ⟨⟨hx, hxall⟩, ⟨y, z⟩, hmem2, hcond2⟩ := hcond
    rw [splitsAtCh_mem ':' r y z] at hmem2
    obtain ⟨⟨⟨hy, hyall⟩, hz⟩, hzall⟩ := hcond2
    exact ⟨x, y, z, hx, hxall, hy, hyall, hz, hzall, by rw [hmem, hmem2]⟩
  · rintro ⟨x, y, z, hx, hxall, hy, hyall, hz, hzall, rfl⟩
    refine ⟨(x, y ++ ':' :: z), (splitsAtCh_mem '@' _ x _).mpr rfl, ?_⟩
    simp only [Bool.and_eq_true, decide_eq_true_eq, List.any_eq_true]
    exact ⟨⟨hx, hxall⟩, (y, z), (splitsAtCh_mem ':' _ y z).mpr rfl, ⟨⟨hy, hyall⟩, hz⟩, hzall⟩

theorem sshShapeMatch_iff_fullShape (s : Str) (hnl : ∀ c ∈ s, ¬ c = '\n') :
    sshShapeMatch s = true ↔ fullShape s = true := by
  constructor
  · intro h
    rw [sshShapeMatch, List.any_eq_true] at h
    obtain ⟨t, htails, h2⟩ := h
    rw [List.any_eq_true] at h2
    obtain ⟨u, hinits, hfull⟩ := h2
    obtain ⟨pre, hpre⟩ : ∃ pre, pre ++ t = s := (List.mem_tails t s).mp htails
    obtain ⟨post, hpost⟩ : ∃ post, u ++ post = t := (List.mem_inits u t).mp hinits
    rw [fullShape_iff] at hfull ⊢
    obtain ⟨x, y, z, hx, hxall, hy, hyall, hz, hzall, hu⟩ := hfull
    refine ⟨pre ++ x, y, z ++ post, ?_, ?_, hy, hyall, ?_, ?_, ?_⟩
    · intro hcontra
      exact hx (List.append_eq_nil.mp hcontra).2
    · rw [List.all_append, hxall, Bool.and_true, List.all_eq_true]
      intro c hc
      have hcs : c ∈ s := by
        rw [← hpre]
        exact List.mem_append_left _ hc
      simp only [nonNL]
      simpa using hnl c hcs
    · intro hcontra
      exact hz (List.append_eq_nil.mp hcontra).1
    · rw [List.all_append, hzall, Bool.true_and, List.all_eq_true]
      intro c hc
      have hct : c ∈ t := by
        rw [← hpost]
        exact List.mem_append_right _ hc
      have hcs : c ∈ s := by
        rw [← hpre]
        exact List.mem_append_right _ hct
      simp only [nonNL]
      simpa using hnl c hcs
    · rw [← hpre, ← hpost, hu]
      simp [List.append_assoc]
  · intro h
    rw [sshShapeMatch, List.any_eq_true]
    refine ⟨s, (List.mem_tails s s).mpr (List.suffix_refl s), ?_⟩
    rw [List.any_eq_true]
    exact ⟨s, (List.mem_inits s s).mpr (List.prefix_refl s), h⟩

end ShapeLemmas

/-- C4: URL classification applies its rules in order — an http:// or
https:// prefix selects the HTTP(S) resolver; otherwise an ssh://
prefix or a match of the regexp .+@.+:.+ selects the SSH resolver (on
newline-free URLs that match is exactly having the full shape
nonempty@nonempty:nonempty); every other URL fails with the
unsupported-protocol error. In particular https://host/repo.git is
HTTP(S), git@host:repo.git is SSH with derived username git, and
ftp://host/repo is unsupported. -/
theorem authMethod_classification :
    (∀ url : Str,
      (startsWith (str "https://") url || startsWith (str "http://") url) = true →
      AuthMethod url = .ok (.http ⟨none⟩)) ∧
    (∀ url : Str,
      (startsWith (str "https://") url || startsWith (str "http://") url) = false →
      (startsWith (str "ssh://") url || sshShapeMatch url) = true →
      AuthMethod url = .ok (.ssh ⟨url⟩)) ∧
    (∀ url : Str,
      (startsWith (str "https://") url || startsWith (str "http://") url) = false →
      (startsWith (str "ssh://") url || sshShapeMatch url) = false →
      AuthMethod url = .error .unsupportedProtocolError) ∧
    (∀ url : Str, (∀ ch ∈ url, ¬ ch = '\n') →
      (sshShapeMatch url = true ↔
        ∃ x y z : Str, x ≠ [] ∧ y ≠ [] ∧ z ≠ [] ∧ url = x ++ '@' :: (y ++ ':' :: z))) ∧
    AuthMethod (str "https://host/repo.git") = .ok (.http ⟨none⟩) ∧
    AuthMethod (str "git@host:repo.git") = .ok (.ssh ⟨str "git@host:repo.git"⟩) ∧
    SSHAuthentication.NewAuthMethod ⟨str "git@host:repo.git"⟩
      = .ok (⟨str "git@host:repo.git"⟩, .sshAgent (str "git")) ∧
    AuthMethod (str "ftp://host/repo") = .error .unsupportedProtocolError := by
  refine ⟨?_, ?_, ?_, ?_, by decide, by decide, by decide, by decide⟩
  · intro url h
    rw [AuthMethod, if_pos h]
  · intro url h1 h2
    rw [AuthMethod, if_neg (by simp [h1]), if_pos h2]
  · intro url h1 h2
    rw [AuthMethod, if_neg (by simp [h1]), if_neg (by simp [h2])]
  · intro url hnl
    rw [sshShapeMatch_iff_fullShape url hnl, fullShape_iff]
    constructor
    · rintro ⟨x, y, z, hx, -, hy, -, hz, -, heq⟩
      exact ⟨x, y, z, hx, hy, hz, heq⟩
    · rintro ⟨x, y, z, hx, hy, hz, rfl⟩
      have hall : ∀ w : Str, (∀ c ∈ w, c ∈ x ++ '@' :: (y ++ ':' :: z)) →
          w.all nonNL = true := by
        intro w hw
        rw [List.all_eq_true]
        intro c hc
        simp only [nonNL]
        simpa using hnl c (hw c hc)
      refine ⟨x, y, z, hx, ?_, hy, ?_, hz, ?_, rfl⟩
      · exact hall x (fun c hc => List.mem_append_left _ hc)
      · refine hall y (fun c hc => List.mem_append_right _ ?_)
        exact List.mem_cons_of_mem _ (List.mem_append_left _ hc)
      · refine hall z (fun c hc => List.mem_append_right _ ?_)
        refine List.mem_cons_of_mem _ (List.mem_append_right _ ?_)
        exact List.mem_cons_of_mem _ hc

/-- Witness for C4: the SSH rule applied at the concrete URL
git@host:repo.git (no scheme prefix, regexp shape match). -/
theorem authMethod_classification_witness :
    AuthMethod (str "git@host:repo.git") = .ok (.ssh ⟨str "git@host:repo.git"⟩) :=
  authMethod_classification.2.1 (str "git@host:repo.git") (by decide) (by decide)

section ConvertTrace

theorem statFS_removeQuiet_ne (fs : FS) (p k : Str) (h : p ≠ k) :
    statFS (osRemoveQuiet fs p) k = statFS fs k := by
  have herase : statFS ⟨eraseKey p fs.entries, fs.cwd, fs.worktrees⟩ k = statFS fs k :=
    findEntry_erase_ne p k fs.entries h
  rw [osRemoveQuiet]
  rcases hf : findEntry fs.entries p with _ | node
  · rfl
  · cases node with
    | dir d =>
      show statFS (if d.nonEmpty = true then fs
        else ⟨eraseKey p fs.entries, fs.cwd, fs.worktrees⟩) k = statFS fs k
      by_cases hne : d.nonEmpty = true
      · rw [if_pos hne]
      · rw [if_neg hne]
        exact herase
    | file l =>
      show statFS ⟨eraseKey p fs.entries, fs.cwd, fs.worktrees⟩ k = statFS fs k
      exact herase

theorem goodSeg_main : goodSeg (str "main") := ⟨by decide, by decide, by decide, by decide⟩

/-- C2 counterexample: converting the repository at /repo, whose actual
configured default branch is develop, succeeds but leaves the original
content at /repo/main (the constant returned by the local DefaultBranch)
and nothing at /repo/develop. -/
theorem toGrove_branch_cex :
    Local.Repository.DefaultBranch ⟨str "/repo", str "/repo", false⟩ = .ok (str "main") ∧
    (Convert.ToGrove fsC2 (str "/repo")).2 = none ∧
    statFS (Convert.ToGrove fsC2 (str "/repo")).1 (str "/repo/develop") = none ∧
    statFS (Convert.ToGrove fsC2 (str "/repo")).1 (str "/repo/main")
      = some (Node.dir ⟨7, true, true, str "develop", 0o755⟩) := by decide

/-- C2 (amended): when ToGrove succeeds, the node originally at the
absolute form of the path has been moved to the subdirectory named by
the value DefaultBranch returned before any mutation — the constant
"main" — regardless of the default branch the repository is actually
configured with. -/
theorem toGrove_moves_to_main (fs : FS) (path : Str) (fs' : FS)
    (hcwd : isAbs fs.cwd = true)
    (h : Convert.ToGrove fs path = (fs', none)) :
    ∃ node, statFS fs (goAbs fs.cwd path) = some node ∧
      statFS fs' (goJoinPath (goAbs fs.cwd path) (str "main")) = some node := by
  rcases hstat0 : statFS fs (goAbs fs.cwd path) with _ | node
  · have hrepoE : Local.NewRepository fs path = .error .ioError := by
      rw [Local.NewRepository, hstat0]
    simp only [Convert.ToGrove, hrepoE] at h
    simp at h
  · cases node with
    | file l =>
      have hrepoE : Local.NewRepository fs path = .error .ioError := by
        rw [Local.NewRepository, hstat0]
      simp only [Convert.ToGrove, hrepoE] at h
      simp at h
    | dir d =>
      by_cases hisrepo : d.isRepo = true
      · -- distinctness facts for the keys touched by the move sequence
        have hA_le : (goAbs fs.cwd path).length ≤ maxKeyLen fs.entries :=
          findEntry_le_maxKeyLen fs.entries _ _ hstat0
        have hT_len : (freshTmpName fs).length = maxKeyLen fs.entries + 20 :=
          freshTmpName_length fs
        have hTA : freshTmpName fs ≠ goAbs fs.cwd path := by
          intro hc
          have := congrArg List.length hc
          omega
        have hAclean : IsCleanAbs (goAbs fs.cwd path) := goAbs_isCleanAbs fs.cwd path hcwd
        have hTclean : IsCleanAbs (freshTmpName fs) := freshTmpName_isCleanAbs fs
        have hTroot : freshTmpName fs ≠ str "/" := freshTmpName_not_root fs
        have htrp_ge : (freshTmpName fs).length
            ≤ (goJoinPath (freshTmpName fs) (base (goAbs fs.cwd path))).length := by
          by_cases hAroot : goAbs fs.cwd path = str "/"
          · rw [hAroot, base_root, goJoinPath_root_arg _ hTclean hTroot]
          · rw [goJoinPath_good _ _ hTclean (base_good _ hAclean hAroot), if_neg hTroot]
            simp only [List.length_append, List.length_cons]
            omega
        have htrpA : goJoinPath (freshTmpName fs) (base (goAbs fs.cwd path))
            ≠ goAbs fs.cwd path := by
          intro hc
          have := congrArg List.length hc
          omega
        have hdbp_len : (goJoinPath (goAbs fs.cwd path) (str "main")).length
            ≤ maxKeyLen fs.entries + 5 := by
          rw [goJoinPath_good _ _ hAclean goodSeg_main]
          have h4 : (str "main").length = 4 := by decide
          by_cases hAroot : goAbs fs.cwd path = str "/"
          · rw [if_pos hAroot]
            simp only [List.nil_append, List.length_cons]
            omega
          · rw [if_neg hAroot]
            simp only [List.length_append, List.length_cons]
            omega
        have hTdbp : freshTmpName fs ≠ goJoinPath (goAbs fs.cwd path) (str "main") := by
          intro hc
          have := congrArg List.length hc
          omega
        -- the successful open
        have hrepoO : Local.NewRepository fs path
            = .ok ⟨path, goAbs fs.cwd path, false⟩ := by
          rw [Local.NewRepository, hstat0]
          show (if d.isRepo = true then Except.ok _ else Except.error GroveError.ioError) = _
          rw [if_pos hisrepo]
        -- the scrutinee equations of the success path
        have hstat1 : statFS ⟨insertEntry (freshTmpName fs)
              (Node.dir ⟨0, false, false, [], 0o700⟩) fs.entries, fs.cwd, fs.worktrees⟩
            (goAbs fs.cwd path) = some (Node.dir d) := by
          show findEntry (insertEntry (freshTmpName fs) _ fs.entries) (goAbs fs.cwd path) = _
          rw [findEntry_insert_ne _ _ _ _ hTA]
          exact hstat0
        simp only [Convert.ToGrove, hrepoO, Local.Repository.DefaultBranch,
          mkdirTempFS, hstat1, nodeMode] at h
        -- the three moves of the success path
        have hfind1 : findEntry (insertEntry (freshTmpName fs)
              (Node.dir ⟨0, false, false, [], 0o700⟩) fs.entries) (goAbs fs.cwd path)
            = some (Node.dir d) := by
          rw [findEntry_insert_ne _ _ _ _ hTA]
          exact hstat0
        have hren1 : renameFS ⟨insertEntry (freshTmpName fs)
              (Node.dir ⟨0, false, false, [], 0o700⟩) fs.entries, fs.cwd, fs.worktrees⟩
            (goAbs fs.cwd path) (goJoinPath (freshTmpName fs) (base (goAbs fs.cwd path)))
            = .ok ⟨insertEntry (goJoinPath (freshTmpName fs) (base (goAbs fs.cwd path)))
                (Node.dir d) (eraseKey (goAbs fs.cwd path) (insertEntry (freshTmpName fs)
                  (Node.dir ⟨0, false, false, [], 0o700⟩) fs.entries)),
                fs.cwd, fs.worktrees⟩ := by
          simp only [renameFS, hfind1]
        have hfind2 : findEntry (insertEntry (goJoinPath (freshTmpName fs)
              (base (goAbs fs.cwd path))) (Node.dir d) (eraseKey (goAbs fs.cwd path)
                (insertEntry (freshTmpName fs) (Node.dir ⟨0, false, false, [], 0o700⟩)
                  fs.entries))) (goAbs fs.cwd path) = none := by
          rw [findEntry_insert_ne _ _ _ _ htrpA]
          exact findEntry_erase_self _ _
        have hmk3 : mkdirAllFS ⟨insertEntry (goJoinPath (freshTmpName fs)
              (base (goAbs fs.cwd path))) (Node.dir d) (eraseKey (goAbs fs.cwd path)
                (insertEntry (freshTmpName fs) (Node.dir ⟨0, false, false, [], 0o700⟩)
                  fs.entries)), fs.cwd, fs.worktrees⟩ (goAbs fs.cwd path) d.mode
            = .ok ⟨insertEntry (goAbs fs.cwd path) (Node.dir ⟨0, false, false, [], d.mode⟩)
                (insertEntry (goJoinPath (freshTmpName fs) (base (goAbs fs.cwd path)))
                  (Node.dir d) (eraseKey (goAbs fs.cwd path) (insertEntry (freshTmpName fs)
                    (Node.dir ⟨0, false, false, [], 0o700⟩) fs.entries))),
                fs.cwd, fs.worktrees⟩ := by
          simp only [mkdirAllFS, statFS, hfind2]
        have hfind3 : findEntry (insertEntry (goAbs fs.cwd path)
              (Node.dir ⟨0, false, false, [], d.mode⟩)
              (insertEntry (goJoinPath (freshTmpName fs) (base (goAbs fs.cwd path)))
                (Node.dir d) (eraseKey (goAbs fs.cwd path) (insertEntry (freshTmpName fs)
                  (Node.dir ⟨0, false, false, [], 0o700⟩) fs.entries))))
            (goJoinPath (freshTmpName fs) (base (goAbs fs.cwd path)))
            = some (Node.dir d) := by
          rw [findEntry_insert_ne _ _ _ _ (Ne.symm htrpA)]
          exact findEntry_insert_self _ _ _
        have hren2 : renameFS ⟨insertEntry (goAbs fs.cwd path)
              (Node.dir ⟨0, false, false, [], d.mode⟩)
              (insertEntry (goJoinPath (freshTmpName fs) (base (goAbs fs.cwd path)))
                (Node.dir d) (eraseKey (goAbs fs.cwd path) (insertEntry (freshTmpName fs)
                  (Node.dir ⟨0, false, false, [], 0o700⟩) fs.entries))),
              fs.cwd, fs.worktrees⟩
            (goJoinPath (freshTmpName fs) (base (goAbs fs.cwd path)))
            (goJoinPath (goAbs fs.cwd path) (str "main"))
            = .ok ⟨insertEntry (goJoinPath (goAbs fs.cwd path) (str "main")) (Node.dir d)
                (eraseKey (goJoinPath (freshTmpName fs) (base (goAbs fs.cwd path)))
                  (insertEntry (goAbs fs.cwd path) (Node.dir ⟨0, false, false, [], d.mode⟩)
                    (insertEntry (goJoinPath (freshTmpName fs) (base (goAbs fs.cwd path)))
                      (Node.dir d) (eraseKey (goAbs fs.cwd path)
                        (insertEntry (freshTmpName fs)
                          (Node.dir ⟨0, false, false, [], 0o700⟩) fs.entries))))),
                fs.cwd, fs.worktrees⟩ := by
          simp only [renameFS, hfind3]
        simp only [hren1, hmk3, hren2, Prod.mk.injEq, and_true] at h
        refine ⟨Node.dir d, rfl, ?_⟩
        rw [← h]
        rw [statFS_removeQuiet_ne _ _ _ hTdbp]
        exact findEntry_insert_self _ _ _
      · have hrepoE : Local.NewRepository fs path = .error .ioError := by
          rw [Local.NewRepository, hstat0]
          show (if d.isRepo = true then Except.ok _ else Except.error GroveError.ioError) = _
          rw [if_neg hisrepo]
        simp only [Convert.ToGrove, hrepoE] at h
        simp at h

end ConvertTrace

/-- Witness for C2 (amended): converting the concrete repository at
/repo moves its node to /repo/main. -/
theorem toGrove_moves_to_main_witness :
    ∃ node, statFS fsC2 (goAbs fsC2.cwd (str "/repo")) = some node ∧
      statFS (Convert.ToGrove fsC2 (str "/repo")).1
        (goJoinPath (goAbs fsC2.cwd (str "/repo")) (str "main")) = some node :=
  toGrove_moves_to_main fsC2 (str "/repo") (Convert.ToGrove fsC2 (str "/repo")).1
    (by decide) (Prod.ext rfl (by decide))

/-- C8: in the modelled successful grove initialization, the remote
listing runs under the context with the fixed 60-second
groveInitTimeout, while the clone issued through Repository.Clone uses
git.PlainClone with no context, so the recorded clone operation carries
no timeout bound at all. -/
theorem newGrove_clone_without_timeout :
    (InitCmd.NewGrove c8World (str "git@host:repo.git") (str "work")).2 = none ∧
    (InitCmd.NewGrove c8World (str "git@host:repo.git") (str "work")).1.ops =
      [Remote.NetCall.listRefs (str "git@host:repo.git") (some InitCmd.groveInitTimeout),
       Remote.NetCall.clone (str "git@host:repo.git") (str "work/main") none] := by
  decide

/-- C1 counterexample: for the linked worktree whose .git file resolves
to /g/main/.git/worktrees/feature, MainWorktree returns the string
/g/main/ — with a trailing separator — which is not the exact string
/g/main the claim names. -/
theorem mainWorktree_example_trailing_slash :
    Local.Repository.MainWorktree exFS exRepo = .ok (str "/g/main/") ∧
    str "/g/main/" ≠ str "/g/main" := by decide

/-- C1 (amended): for every linked worktree whose .git link file
parses, when the resolved path (made absolute against the current
worktree root when relative) contains the .git marker, MainWorktree
returns exactly the portion of the resolved path strictly before the
last occurrence of the marker; in the concrete example this portion is
the string /g/main/ with its trailing separator. -/
theorem mainWorktree_last_marker :
    (∀ (fs : FS) (r : Local.Repository) (cur line p resolved : Str),
      Local.Repository.CurrentWorktree r = .ok cur →
      statFS fs (Local.GitPath cur) = some (Node.file line) →
      readGitFileLine line = (p, none) →
      resolved = (if isAbs p then p else goAbs fs.cwd (goJoinPath cur p)) →
      containsSub GitStorePath resolved = true →
      Local.Repository.MainWorktree fs r = .ok (Local.mainFromLinked resolved) ∧
      (∃ t, resolved = Local.mainFromLinked resolved ++ GitStorePath ++ t) ∧
      (∀ x y, resolved = x ++ GitStorePath ++ y →
        x.length ≤ (Local.mainFromLinked resolved).length)) ∧
    Local.Repository.MainWorktree exFS exRepo = .ok (str "/g/main/") := by
  constructor
  · intro fs r cur line p resolved h1 h2 h3 h4 h5
    have hsep : GitStorePath ≠ [] := by decide
    have h2le : 2 ≤ (goSplit GitStorePath resolved).length :=
      containsSub_two_le GitStorePath hsep resolved.length resolved le_rfl h5
    have hmain : Local.mainFromLinked resolved
        = List.intercalate GitStorePath (goSplit GitStorePath resolved).dropLast := by
      simp only [Local.mainFromLinked]
      rw [if_neg (by omega)]
    have h2' : findEntry fs.entries (Local.GitPath cur) = some (Node.file line) := h2
    have hrg : Local.Repository.readGitFile fs (Local.GitPath cur) = .ok p := by
      simp only [Local.Repository.readGitFile, h2', h3]
    have hMW : Local.Repository.MainWorktree fs r = .ok (Local.mainFromLinked resolved) := by
      rw [h4]
      simp only [Local.Repository.MainWorktree, h1, h2, hrg]
    have hmarker := goSplit_last_marker GitStorePath resolved hsep borderFree_gitStore h2le
    refine ⟨hMW, ?_, ?_⟩
    · obtain ⟨t, ht⟩ := hmarker.1
      exact ⟨t, by rw [hmain]; exact ht⟩
    · intro x y hxy
      rw [hmain]
      exact hmarker.2 x y hxy
  · decide

/-- Witness for C1 (amended) at the example linked worktree. -/
theorem mainWorktree_last_marker_witness :
    Local.Repository.MainWorktree exFS exRepo
        = .ok (Local.mainFromLinked (str "/g/main/.git/worktrees/feature")) ∧
      (∃ t, str "/g/main/.git/worktrees/feature"
        = Local.mainFromLinked (str "/g/main/.git/worktrees/feature")
            ++ GitStorePath ++ t) ∧
      (∀ x y, str "/g/main/.git/worktrees/feature" = x ++ GitStorePath ++ y →
        x.length ≤ (Local.mainFromLinked (str "/g/main/.git/worktrees/feature")).length) :=
  mainWorktree_last_marker.1 exFS exRepo (str "/g/feature")
    (str "gitdir: /g/main/.git/worktrees/feature")
    (str "/g/main/.git/worktrees/feature") (str "/g/main/.git/worktrees/feature")
    (by decide) (by decide) (by decide) (by decide) (by decide)
